import Mathlib

/-!
# hamming: edits that convert one keyed sequence into another

A shallow embedding of `hamming.go` (`Edits`, `differ.Diff`, `differ.diff`) and of the
array callbacks of `hamming_test.go`, followed by theorems about them.

Conventions of the embedding:

* an item is a value of an arbitrary type `α`; the method `Key()` is a function
  `key : α → κ` into a type with decidable equality;
* Go `int` values that may be negative (position codes, offsets) are `Int`; the loop
  cursors `i` and `o`, which the loop guard keeps positive before every decrement, are `Nat`;
* a Go `map` is a list of entries with pairwise distinct keys (`GoMap`);
* the callbacks `Splice` and `Move` are recorded as a list of operations (`Op`), in call order;
* a run-time panic (index or slice bound out of range) and an exhausted iteration budget
  are `none`.

Outside the embedding: keys on which Go's `==` is not reflexive (a floating-point NaN) or that
cannot be used as map keys, and arithmetic overflow of `int` (positions are slice indices, so
`-(kk+1)` and `i-1-index` stay in range).
-/

namespace Hamming

/-- A Go map: a list of key/value entries. The operations below keep the keys distinct. -/
abbrev GoMap (κ ν : Type) := List (κ × ν)

namespace GoMap

variable {κ ν : Type} [DecidableEq κ]

/-- The read `v, ok := m[k]`: `none` when the key is absent. -/
def lookup : GoMap κ ν → κ → Option ν
  | [], _ => none
  | (k1, v) :: rest, k => if k1 = k then some v else lookup rest k

/-- The statement `delete(m, k)`. -/
def delete (m : GoMap κ ν) (k : κ) : GoMap κ ν :=
  m.filter (fun e => decide (e.1 ≠ k))

/-- The assignment `m[k] = v`. -/
def store (m : GoMap κ ν) (k : κ) (v : ν) : GoMap κ ν :=
  (k, v) :: delete m k

/-- The values met by `for _, v := range m`, in the enumeration order of the list. -/
def values (m : GoMap κ ν) : List ν :=
  m.map Prod.snd

end GoMap

/-- One callback invocation made by `differ.diff`. -/
inductive Op (α : Type) where
  | splice (offset : Int) (before after : List α)
  | move (offset count distance : Int)
  deriving DecidableEq, Repr

/-- The receiver of `Diff` and `diff`; the two callbacks are replaced by the emitted `Op` list. -/
structure differ (α : Type) where
  Input : List α
  Output : List α

/-- The slice read `xs[n]` for a Go `int` index: `none` when it is out of range. -/
def index {α : Type} (xs : List α) (n : Int) : Option α :=
  if n < 0 then none else xs[n.toNat]?

section Resolver

variable {α κ : Type} [DecidableEq κ]

/-- The first loop of `Diff` (lines 53-61), started at position `kk`. -/
def scanInput (key : α → κ) :
    List α → Nat → GoMap κ Nat → GoMap (κ × Nat) Int → List Int → GoMap (κ × Nat) Int × List Int
  | [], _, _, indices, input => (indices, input)
  | item :: rest, kk, counter, indices, input =>
    let k := key item
    let count := (counter.lookup k).getD 0
    scanInput key rest (kk + 1) (counter.store k (count + 1))
      (indices.store (k, count) (kk : Int)) (input.set kk (kk : Int))

/-- The second loop of `Diff` (lines 65-82), started at position `kk`. -/
def scanOutput (key : α → κ) :
    List α → Nat → GoMap κ Nat → GoMap (κ × Nat) Int → List Int → GoMap (κ × Nat) Int × List Int
  | [], _, _, indices, output => (indices, output)
  | item :: rest, kk, counter, indices, output =>
    let k := key item
    let count := (counter.lookup k).getD 0
    match indices.lookup (k, count) with
    | some idx =>
      scanOutput key rest (kk + 1) (counter.store k (count + 1))
        (indices.delete (k, count)) (output.set kk idx)
    | none =>
      scanOutput key rest (kk + 1) (counter.store k (count + 1))
        indices (output.set kk (-((kk : Int) + 1)))

/-- The third loop of `Diff` (lines 85-88) over the values `vs` of the leftover entries. -/
def buildRemoved (vs : List Int) : GoMap Int Bool :=
  vs.foldl (fun removed v => removed.store v true) []

/-- The state of `Diff` when it calls `diff`: the coded input, the coded output and the
entries left in `indices` (lines 46-82). -/
def Diff.coded (key : α → κ) (d : differ α) : List Int × List Int × GoMap (κ × Nat) Int :=
  let r1 := scanInput key d.Input 0 [] [] (List.replicate d.Input.length 0)
  let r2 := scanOutput key d.Output 0 [] r1.1 (List.replicate d.Output.length 0)
  (r1.2, r2.2, r2.1)

/-- The coded input array handed to `diff`. -/
def inputCoded (key : α → κ) (d : differ α) : List Int := (Diff.coded key d).1

/-- The coded output array handed to `diff`. -/
def outputCoded (key : α → κ) (d : differ α) : List Int := (Diff.coded key d).2.1

/-- The removed set handed to `diff`. -/
def removedSet (key : α → κ) (d : differ α) : GoMap Int Bool :=
  buildRemoved (GoMap.values (Diff.coded key d).2.2)

end Resolver

section Emitter

variable {α : Type}

/-- The cursors and the (shrinking) coded input array of the loop of `diff`. -/
structure LoopState where
  input : List Int
  i : Nat
  o : Nat
  deriving DecidableEq, Repr

/-- The search loop of the moved branch (lines 109-115): `kk` runs over the next `n`
positions; the result is `-1` when no position holds `target`. -/
def search (input : List Int) (target : Int) : Nat → Nat → Option Int
  | 0, _ => some (-1)
  | n + 1, kk =>
    match input[kk]? with
    | none => none
    | some v => if v = target then some (kk : Int) else search input target n (kk + 1)

/-- One iteration of the loop of `diff` (lines 97-120): the operations emitted and the next
state. -/
def step (d : differ α) (output : List Int) (removed : GoMap Int Bool) (s : LoopState) :
    Option (List (Op α) × LoopState) :=
  match s.input[s.i - 1]?, output[s.o - 1]? with
  | some a, some b =>
    if a = b then
      some ([], { s with i := s.i - 1, o := s.o - 1 })
    else if (removed.lookup a).getD false = true then
      match index d.Input a with
      | none => none
      | some item => some ([Op.splice ((s.i : Int) - 1) [item] []], { s with i := s.i - 1 })
    else if b < 0 then
      match index d.Output (-1 - b) with
      | none => none
      | some item => some ([Op.splice (s.i : Int) [] [item]], { s with o := s.o - 1 })
    else
      match search s.input b s.i 0 with
      | none => none
      | some idx =>
        -- Move(idx, 1, i-1-idx) is called first; input[:idx] then panics when idx = -1
        if idx < 0 then none
        else
          some ([Op.move idx 1 ((s.i : Int) - 1 - idx)],
            { input := s.input.take idx.toNat ++ (s.input.take s.i).drop (idx.toNat + 1),
              i := s.i - 1, o := s.o - 1 })
  | _, _ => none

/-- The item loops after the main loop (lines 125-127 and 133-135): `xs[dec codes[kk]]` for
the next `n` positions from `kk`. -/
def leftover (xs : List α) (codes : List Int) (dec : Int → Int) : Nat → Nat → Option (List α)
  | 0, _ => some []
  | n + 1, kk =>
    match codes[kk]? with
    | none => none
    | some c =>
      match index xs (dec c) with
      | none => none
      | some x => (leftover xs codes dec n (kk + 1)).map (fun items => x :: items)

/-- The code after the loop of `diff` (lines 123-137). -/
def finish (d : differ α) (output : List Int) (s : LoopState) : Option (List (Op α)) :=
  let ins : Option (List (Op α)) :=
    if 0 < s.o then
      (leftover d.Output output (fun c => -1 - c) s.o 0).map (fun items => [Op.splice 0 [] items])
    else some []
  let del : Option (List (Op α)) :=
    if 0 < s.i then
      (leftover d.Input s.input (fun c => c) s.i 0).map (fun items => [Op.splice 0 items []])
    else some []
  match ins, del with
  | some a, some b => some (a ++ b)
  | _, _ => none

/-- The loop of `diff` followed by the code after it, with an iteration budget. -/
def run (d : differ α) (output : List Int) (removed : GoMap Int Bool) :
    Nat → LoopState → Option (List (Op α))
  | 0, _ => none
  | fuel + 1, s =>
    if 0 < s.i ∧ 0 < s.o then
      match step d output removed s with
      | none => none
      | some (ops, s1) => (run d output removed fuel s1).map (fun rest => ops ++ rest)
    else finish d output s

/-- The method `differ.diff`: every iteration lowers `i + o`, which bounds the budget. -/
def diff (d : differ α) (input output : List Int) (removed : GoMap Int Bool) :
    Option (List (Op α)) :=
  run d output removed (input.length + output.length + 1)
    { input := input, i := input.length, o := output.length }

end Emitter

section Entry

variable {α κ : Type} [DecidableEq κ]

/-- The method `differ.Diff`. -/
def Diff (key : α → κ) (d : differ α) : Option (List (Op α)) :=
  diff d (inputCoded key d) (outputCoded key d) (removedSet key d)

/-- The function `Edits`: the operations passed to `splice` and `move`, in call order. -/
def Edits (key : α → κ) (inp out : List α) : Option (List (Op α)) :=
  Diff key { Input := inp, Output := out }

end Entry

section Callbacks

variable {α : Type}

/-- The array callbacks of `TestCases` (lines 72-83), applied to the current version `xs`;
`none` when a slice bound is out of range. -/
def applyOp : Op α → List α → Option (List α)
  | Op.splice offset before after, xs =>
    if 0 ≤ offset ∧ offset.toNat + before.length ≤ xs.length then
      some (xs.take offset.toNat ++ after ++ xs.drop (offset.toNat + before.length))
    else none
  | Op.move offset count distance, xs =>
    if 0 ≤ offset ∧ 0 ≤ count ∧ 0 ≤ distance ∧
        offset.toNat + count.toNat + distance.toNat ≤ xs.length then
      let o1 := xs.take offset.toNat
      let o2 := (xs.drop offset.toNat).take count.toNat
      let o3 := (xs.drop (offset.toNat + count.toNat)).take distance.toNat
      let o4 := xs.drop (offset.toNat + count.toNat + distance.toNat)
      some (o1 ++ o3 ++ o2 ++ o4)
    else none

/-- The operations applied one after the other, in emission order. -/
def applyOps : List (Op α) → List α → Option (List α)
  | [], xs => some xs
  | op :: rest, xs =>
    match applyOp op xs with
    | none => none
    | some ys => applyOps rest ys

end Callbacks

section Ordinal

variable {α κ : Type} [DecidableEq κ]

/-- The number of items of `xs` whose key is `k`. -/
def occurrences (key : α → κ) (k : κ) (xs : List α) : Nat :=
  xs.countP (fun x => decide (key x = k))

/-- Position `p` of `xs` holds the `(c+1)`-th item with key `k`: the item at `p` has key `k`
and exactly `c` items before it have key `k`. -/
def IsOccurrence (key : α → κ) (xs : List α) (k : κ) (c p : Nat) : Prop :=
  ∃ x, xs[p]? = some x ∧ key x = k ∧ occurrences key k (xs.take p) = c

/-- The code that ordinal matching assigns to output position `j`, whose item is the
`(c+1)`-th with key `k` in the output. -/
def Matches (key : α → κ) (inp : List α) (k : κ) (c j : Nat) (v : Int) : Prop :=
  (∀ p, IsOccurrence key inp k c p → v = (p : Int)) ∧
    (occurrences key k inp ≤ c → v = -((j : Int) + 1))

end Ordinal

section ResolvedData

variable {α κ : Type} [DecidableEq κ]

/-- What `diff` may assume about the data it receives from `Diff`: the coded input is the
identity array, every output position carries the code of ordinal matching, and the removed
set holds the input positions whose ordinal is not reached by the output. -/
structure Resolved (key : α → κ) (d : differ α) (input output : List Int)
    (removed : GoMap Int Bool) : Prop where
  input_eq : input = (List.range d.Input.length).map Int.ofNat
  output_len : output.length = d.Output.length
  output_spec : ∀ j y, d.Output[j]? = some y → ∃ v, output[j]? = some v ∧
    Matches key d.Input (key y) (occurrences key (key y) (d.Output.take j)) j v
  removed_spec : ∀ c, (removed.lookup c).getD false = true ↔
    ∃ (p : Nat) (x : α), c = (p : Int) ∧ d.Input[p]? = some x ∧
      occurrences key (key x) d.Output ≤ occurrences key (key x) (d.Input.take p)

end ResolvedData

section LoopSpec

variable {α κ : Type} [DecidableEq κ]

/-- The items of `xs` at the positions `codes`, in the order of `codes`. -/
def itemsAt (xs : List α) (codes : List Int) : List α :=
  codes.filterMap (index xs)

/-- What holds before and after every iteration of the loop of `diff`: the first `i` coded
inputs are distinct valid positions, each of them removed or still awaited by one of the first
`o` coded outputs, and every matched code among the first `o` outputs is among them. -/
structure Inv (d : differ α) (output : List Int) (removed : GoMap Int Bool) (s : LoopState) :
    Prop where
  i_le : s.i ≤ s.input.length
  o_le : s.o ≤ output.length
  nodup : (s.input.take s.i).Nodup
  input_mem : ∀ c ∈ s.input.take s.i, 0 ≤ c ∧ c < (d.Input.length : Int) ∧
    ((removed.lookup c).getD false = true ∨ c ∈ output.take s.o)
  output_mem : ∀ c ∈ output.take s.o, 0 ≤ c → c ∈ s.input.take s.i

/-- The operations `diff` emits from a loop state whose unprocessed coded input is `L` and
whose output cursor is `o`, one rule per branch of the loop and of the code after it. -/
inductive Trace (key : α → κ) (d : differ α) (output : List Int) (removed : GoMap Int Bool) :
    List Int → Nat → List (Op α) → Prop
  | done : Trace key d output removed [] 0 []
  | insertAll (o : Nat) :
      0 < o → o ≤ d.Output.length →
      (∀ kk, kk < o → output[kk]? = some (-((kk : Int) + 1))) →
      Trace key d output removed [] o [Op.splice 0 [] (d.Output.take o)]
  | deleteAll (L : List Int) :
      L ≠ [] →
      (∀ c ∈ L, (removed.lookup c).getD false = true ∧ (index d.Input c).isSome = true) →
      Trace key d output removed L 0 [Op.splice 0 (itemsAt d.Input L) []]
  | same (L : List Int) (a : Int) (o : Nat) (x y : α) (ops : List (Op α)) :
      output[o]? = some a → index d.Input a = some x → d.Output[o]? = some y →
      key x = key y → (removed.lookup a).getD false = false →
      Trace key d output removed L o ops →
      Trace key d output removed (L ++ [a]) (o + 1) ops
  | delete (L : List Int) (a b : Int) (o : Nat) (x : α) (ops : List (Op α)) :
      output[o]? = some b → a ≠ b → (removed.lookup a).getD false = true →
      index d.Input a = some x →
      Trace key d output removed L (o + 1) ops →
      Trace key d output removed (L ++ [a]) (o + 1) (Op.splice (L.length : Int) [x] [] :: ops)
  | insert (L : List Int) (a b : Int) (o : Nat) (y : α) (ops : List (Op α)) :
      output[o]? = some b → a ≠ b → (removed.lookup a).getD false = false →
      b = -((o : Int) + 1) → d.Output[o]? = some y →
      Trace key d output removed (L ++ [a]) o ops →
      Trace key d output removed (L ++ [a]) (o + 1)
        (Op.splice ((L.length : Int) + 1) [] [y] :: ops)
  | move (A B : List Int) (a b : Int) (o : Nat) (x y : α) (ops : List (Op α)) :
      output[o]? = some b → a ≠ b → (removed.lookup a).getD false = false →
      (removed.lookup b).getD false = false → b ∉ A →
      index d.Input b = some x → d.Output[o]? = some y → key x = key y →
      Trace key d output removed (A ++ (B ++ [a])) o ops →
      Trace key d output removed (A ++ b :: (B ++ [a])) (o + 1)
        (Op.move (A.length : Int) 1 ((B.length : Int) + 1) :: ops)

end LoopSpec

section Effects

variable {α : Type}

/-- The items that the splices of an operation list delete: the `before` lists, in emission
order. -/
def deleted : List (Op α) → List α
  | [] => []
  | Op.splice _ before _ :: rest => before ++ deleted rest
  | Op.move _ _ _ :: rest => deleted rest

/-- The items that the splices of an operation list insert: the `after` lists, in emission
order. -/
def inserted : List (Op α) → List α
  | [] => []
  | Op.splice _ _ after :: rest => after ++ inserted rest
  | Op.move _ _ _ :: rest => inserted rest

/-- The output items among the first `o` whose code is a negative sentinel, in output
order. -/
def unmatched (out : List α) (output : List Int) (o : Nat) : List α :=
  (((out.zip output).take o).filter (fun e => decide (e.2 < 0))).map Prod.fst

end Effects

section Reachability

variable {α : Type}

/-- The state in which `diff` enters its loop (line 94). -/
def initial (input output : List Int) : LoopState :=
  { input := input, i := input.length, o := output.length }

/-- The loop states visited from `s0`, each with the operations emitted on the way: a state
is left only when the loop guard `i > 0 && o > 0` holds, through one iteration of the loop. -/
inductive Reaches (d : differ α) (output : List Int) (removed : GoMap Int Bool)
    (s0 : LoopState) : List (Op α) → LoopState → Prop
  | start : Reaches d output removed s0 [] s0
  | next (acc ops : List (Op α)) (s s1 : LoopState) :
      Reaches d output removed s0 acc s → 0 < s.i → 0 < s.o →
      step d output removed s = some (ops, s1) →
      Reaches d output removed s0 (acc ++ ops) s1

/-- The number of `move` calls in an operation list. -/
def countMoves : List (Op α) → Nat
  | [] => 0
  | Op.splice _ _ _ :: rest => countMoves rest
  | Op.move _ _ _ :: rest => countMoves rest + 1

/-- An operation can be applied to the current version `xs`: a splice lies inside `xs` and
its `before` list is what `xs` holds there; a move and the items it passes lie inside `xs`. -/
def Applicable : Op α → List α → Prop
  | Op.splice offset before _, xs =>
    0 ≤ offset ∧ offset + (before.length : Int) ≤ (xs.length : Int) ∧
      (xs.drop offset.toNat).take before.length = before
  | Op.move offset count distance, xs =>
    0 ≤ offset ∧ offset + count + distance ≤ (xs.length : Int)

/-- Every operation of the list can be applied to the version that the operations before it
produce from `xs`. -/
def AllApplicable : List (Op α) → List α → Prop
  | [], _ => True
  | op :: rest, xs =>
    Applicable op xs ∧ ∃ ys, applyOp op xs = some ys ∧ AllApplicable rest ys

/-- The number of matched pairs among the first `o` output positions: the positions whose
code is not negative. -/
def matchedCount (output : List Int) (o : Nat) : Nat :=
  ((output.take o).filter (fun c => decide (0 ≤ c))).length

end Reachability

section TestCases

/-- The test case `Shuffle` of `TestCases` (input a, b, c; output c, b, a), with the keys
numbered 1, 2, 3 and the position of each item as its payload. -/
def shuffle : differ (Nat × Nat) :=
  { Input := [(1, 0), (2, 1), (3, 2)], Output := [(3, 0), (2, 1), (1, 2)] }

/-- The test case `InsertAll` of `TestCases` (empty input; output a, b, c). -/
def insertAll : differ (Nat × Nat) :=
  { Input := [], Output := [(1, 0), (2, 1), (3, 2)] }

/-- The test case `DeleteAll` of `TestCases` (input a, b, c; empty output). -/
def deleteAll : differ (Nat × Nat) :=
  { Input := [(1, 0), (2, 1), (3, 2)], Output := [] }

end TestCases

namespace GoMap
variable {κ ν : Type} [DecidableEq κ]

theorem lookup_delete (m : GoMap κ ν) (k k1 : κ) :
    lookup (delete m k) k1 = if k = k1 then none else lookup m k1 := by
  induction m with
  | nil => simp [delete, lookup]
  | cons e rest ih =>
    obtain ⟨ke, ve⟩ := e
    unfold delete at ih ⊢
    by_cases h1 : ke = k
    · subst h1
      simp only [List.filter, ne_eq, not_true_eq_false, decide_False]
      rw [ih]
      by_cases h2 : ke = k1
      · simp [h2]
      · simp [h2, lookup]
    · simp only [List.filter, ne_eq, h1, not_false_eq_true, decide_True, lookup]
      rw [ih]
      by_cases h2 : ke = k1
      · subst h2
        simp [Ne.symm h1]
      · simp [h2]

theorem lookup_store (m : GoMap κ ν) (k k1 : κ) (v : ν) :
    lookup (store m k v) k1 = if k = k1 then some v else lookup m k1 := by
  unfold store
  simp only [lookup]
  by_cases h : k = k1
  · simp [h]
  · simp [h, lookup_delete]

theorem lookup_eq_some_of_mem (m : GoMap κ ν) (hm : (m.map Prod.fst).Nodup) (k : κ) (v : ν) :
    lookup m k = some v ↔ (k, v) ∈ m := by
  induction m with
  | nil => simp [lookup]
  | cons e rest ih =>
    obtain ⟨ke, ve⟩ := e
    simp only [List.map_cons, List.nodup_cons] at hm
    simp only [lookup, List.mem_cons, Prod.mk.injEq]
    by_cases h : ke = k
    · subst h
      simp only [if_true, Option.some.injEq]
      constructor
      · intro hv; left; exact ⟨trivial, hv.symm⟩
      · rintro (⟨-, rfl⟩ | hmem)
        · rfl
        · exact absurd (List.mem_map_of_mem Prod.fst hmem) hm.1
    · simp only [h, if_false]
      rw [ih hm.2]
      constructor
      · intro hmem; right; exact hmem
      · rintro (⟨rfl, -⟩ | hmem)
        · exact absurd rfl h
        · exact hmem

theorem nodup_delete (m : GoMap κ ν) (hm : (m.map Prod.fst).Nodup) (k : κ) :
    ((delete m k).map Prod.fst).Nodup := by
  unfold delete
  exact List.Nodup.sublist (List.Sublist.map _ (List.filter_sublist m)) hm

theorem nodup_store (m : GoMap κ ν) (hm : (m.map Prod.fst).Nodup) (k : κ) (v : ν) :
    ((store m k v).map Prod.fst).Nodup := by
  unfold store
  simp only [List.map_cons, List.nodup_cons]
  refine ⟨?_, nodup_delete m hm k⟩
  intro hmem
  obtain ⟨e, he, hk⟩ := List.mem_map.mp hmem
  unfold delete at he
  simp [List.mem_filter] at he
  exact he.2 hk

theorem mem_values (m : GoMap κ ν) (hm : (m.map Prod.fst).Nodup) (v : ν) :
    v ∈ values m ↔ ∃ k, lookup m k = some v := by
  unfold values
  constructor
  · intro h
    obtain ⟨e, he, hv⟩ := List.mem_map.mp h
    exact ⟨e.1, (lookup_eq_some_of_mem m hm e.1 v).mpr (by rw [← hv]; exact he)⟩
  · rintro ⟨k, hk⟩
    exact List.mem_map.mpr ⟨(k, v), (lookup_eq_some_of_mem m hm k v).mp hk, rfl⟩

end GoMap

theorem buildRemoved_aux (vs : List Int) (acc : GoMap Int Bool) (c : Int) :
    (GoMap.lookup (vs.foldl (fun removed v => GoMap.store removed v true) acc) c).getD false = true ↔
      c ∈ vs ∨ (GoMap.lookup acc c).getD false = true := by
  induction vs generalizing acc with
  | nil => simp
  | cons v rest ih =>
    simp only [List.foldl_cons, List.mem_cons]
    rw [ih, GoMap.lookup_store]
    by_cases h : v = c
    · simp [h]
    · simp only [h, if_false]
      constructor
      · rintro (h1 | h1)
        · exact Or.inl (Or.inr h1)
        · exact Or.inr h1
      · rintro ((h1 | h1) | h1)
        · exact absurd h1.symm h
        · exact Or.inl h1
        · exact Or.inr h1

theorem buildRemoved_spec (vs : List Int) (c : Int) :
    (GoMap.lookup (buildRemoved vs) c).getD false = true ↔ c ∈ vs := by
  unfold buildRemoved
  rw [buildRemoved_aux]
  simp [GoMap.lookup]

section OrdinalLemmas
variable {α κ : Type} [DecidableEq κ]

theorem occurrences_append (key : α → κ) (k : κ) (xs ys : List α) :
    occurrences key k (xs ++ ys) = occurrences key k xs + occurrences key k ys := by
  simp [occurrences, List.countP_append]

theorem occurrences_singleton (key : α → κ) (k : κ) (x : α) :
    occurrences key k [x] = if key x = k then 1 else 0 := by
  by_cases h : key x = k <;> simp [occurrences, List.countP_cons, h]

theorem split_at {β : Type} {xs : List β} {p : Nat} {x : β} (h : xs[p]? = some x) :
    xs = xs.take p ++ x :: xs.drop (p + 1) := by
  obtain ⟨hp, hx⟩ := List.getElem?_eq_some_iff.mp h
  rw [← hx, ← List.drop_eq_getElem_cons hp, List.take_append_drop]

theorem IsOccurrence.lt_length {key : α → κ} {xs : List α} {k : κ} {c p : Nat}
    (h : IsOccurrence key xs k c p) : p < xs.length := by
  obtain ⟨x, hx, -, -⟩ := h
  exact (List.getElem?_eq_some_iff.mp hx).1

theorem IsOccurrence.lt_occurrences {key : α → κ} {xs : List α} {k : κ} {c p : Nat}
    (h : IsOccurrence key xs k c p) : c < occurrences key k xs := by
  obtain ⟨x, hx, hk, hc⟩ := h
  have hp := (List.getElem?_eq_some_iff.mp hx).1
  have hsplit : xs = xs.take p ++ x :: xs.drop (p + 1) := split_at hx
  rw [hsplit, occurrences_append, hc]
  have : occurrences key k (x :: xs.drop (p + 1)) =
      occurrences key k [x] + occurrences key k (xs.drop (p + 1)) := by
    rw [← occurrences_append]; rfl
  rw [this, occurrences_singleton, if_pos hk]
  omega

theorem isOccurrence_snoc (key : α → κ) (pre : List α) (x : α) (k : κ) (c p : Nat) :
    IsOccurrence key (pre ++ [x]) k c p ↔
      IsOccurrence key pre k c p ∨ (p = pre.length ∧ key x = k ∧ occurrences key k pre = c) := by
  unfold IsOccurrence
  rcases Nat.lt_trichotomy p pre.length with h | h | h
  · rw [List.getElem?_append_left h, List.take_append_of_le_length (Nat.le_of_lt h)]
    constructor
    · intro h1; exact Or.inl h1
    · rintro (h1 | ⟨h1, -⟩)
      · exact h1
      · omega
  · subst h
    simp only [List.getElem?_concat_length, Option.some.injEq, List.take_left', true_and]
    constructor
    · rintro ⟨y, rfl, h1, h2⟩
      exact Or.inr ⟨h1, h2⟩
    · rintro (⟨y, h1, -⟩ | ⟨h1, h2⟩)
      · simp at h1
      · exact ⟨x, rfl, h1, h2⟩
  · have : (pre ++ [x])[p]? = none := by
      apply List.getElem?_eq_none
      simp; omega
    have h2 : pre[p]? = none := List.getElem?_eq_none (by omega)
    simp only [this, h2]
    constructor
    · rintro ⟨y, hy, -⟩; simp at hy
    · rintro (⟨y, hy, -⟩ | ⟨h3, -⟩)
      · simp at hy
      · omega

theorem IsOccurrence.append {key : α → κ} {pre : List α} {k : κ} {c p : Nat}
    (h : IsOccurrence key pre k c p) (rest : List α) : IsOccurrence key (pre ++ rest) k c p := by
  obtain ⟨x, hx, hk, hc⟩ := h
  have hp := (List.getElem?_eq_some_iff.mp hx).1
  refine ⟨x, ?_, hk, ?_⟩
  · rw [List.getElem?_append_left hp]; exact hx
  · rw [List.take_append_of_le_length (Nat.le_of_lt hp)]; exact hc

theorem IsOccurrence.unique {key : α → κ} {xs : List α} {k : κ} {c p q : Nat}
    (hp : IsOccurrence key xs k c p) (hq : IsOccurrence key xs k c q) : p = q := by
  have aux : ∀ {a b : Nat}, IsOccurrence key xs k c a → IsOccurrence key xs k c b → ¬ a < b := by
    intro a b ha hb hab
    obtain ⟨y, hy, hky, hcy⟩ := hb
    have hb_lt := (List.getElem?_eq_some_iff.mp hy).1
    have h1 : IsOccurrence key (xs.take b) k c a := by
      obtain ⟨x, hx, hkx, hcx⟩ := ha
      refine ⟨x, ?_, hkx, ?_⟩
      · rw [List.getElem?_take_of_lt hab]; exact hx
      · rw [List.take_take, Nat.min_eq_left (Nat.le_of_lt hab)]; exact hcx
    have := h1.lt_occurrences
    omega
  rcases Nat.lt_trichotomy p q with h | h | h
  · exact absurd h (aux hp hq)
  · exact h
  · exact absurd h (aux hq hp)

theorem isOccurrence_exists (key : α → κ) (xs : List α) (k : κ) (c : Nat)
    (h : c < occurrences key k xs) : ∃ p, IsOccurrence key xs k c p := by
  induction xs using List.reverseRecOn with
  | nil => simp [occurrences] at h
  | append_singleton pre x ih =>
    rw [occurrences_append, occurrences_singleton] at h
    by_cases hc : c < occurrences key k pre
    · obtain ⟨p, hp⟩ := ih hc
      exact ⟨p, hp.append [x]⟩
    · have hk : key x = k := by
        by_contra hne
        rw [if_neg hne] at h
        omega
      rw [if_pos hk] at h
      refine ⟨pre.length, (isOccurrence_snoc key pre x k c pre.length).mpr (Or.inr ⟨rfl, hk, ?_⟩)⟩
      omega

theorem isOccurrence_self (key : α → κ) (xs : List α) (p : Nat) (x : α) (h : xs[p]? = some x) :
    IsOccurrence key xs (key x) (occurrences key (key x) (xs.take p)) p :=
  ⟨x, h, rfl, rfl⟩

theorem IsOccurrence.key_eq {key : α → κ} {xs : List α} {k k1 : κ} {c c1 p : Nat}
    (h : IsOccurrence key xs k c p) (h1 : IsOccurrence key xs k1 c1 p) : k = k1 ∧ c = c1 := by
  obtain ⟨x, hx, hk, hc⟩ := h
  obtain ⟨y, hy, hk1, hc1⟩ := h1
  rw [hx] at hy
  cases hy
  subst hk hk1
  exact ⟨rfl, hc.symm.trans hc1⟩

end OrdinalLemmas

section ScanLemmas
variable {α κ : Type} [DecidableEq κ]

theorem occurrences_snoc (key : α → κ) (k : κ) (pre : List α) (x : α) :
    occurrences key k (pre ++ [x]) = occurrences key k pre + if key x = k then 1 else 0 := by
  rw [occurrences_append, occurrences_singleton]

/-- The first loop of `Diff`, run over the rest of the input from a state that describes the
prefix `pre`, ends in a state that describes the whole input. -/
theorem scanInput_spec (key : α → κ) (rest : List α) :
    ∀ (pre : List α) (counter : GoMap κ Nat) (indices : GoMap (κ × Nat) Int) (input : List Int),
      (∀ k, (counter.lookup k).getD 0 = occurrences key k pre) →
      (∀ k c v, indices.lookup (k, c) = some v ↔ ∃ p : Nat, v = (p : Int) ∧ IsOccurrence key pre k c p) →
      (indices.map Prod.fst).Nodup →
      (∀ p, p < pre.length → input[p]? = some (p : Int)) →
      pre.length + rest.length ≤ input.length →
      (∀ k c v, (scanInput key rest pre.length counter indices input).1.lookup (k, c) = some v ↔
          ∃ p : Nat, v = (p : Int) ∧ IsOccurrence key (pre ++ rest) k c p) ∧
        ((scanInput key rest pre.length counter indices input).1.map Prod.fst).Nodup ∧
        (scanInput key rest pre.length counter indices input).2.length = input.length ∧
        (∀ p, p < pre.length + rest.length →
          (scanInput key rest pre.length counter indices input).2[p]? = some (p : Int)) := by
  induction rest with
  | nil =>
    intro pre counter indices input _ hidx hnd hin _
    simp only [scanInput, List.append_nil, List.length_nil, Nat.add_zero]
    exact ⟨hidx, hnd, trivial, hin⟩
  | cons x rest ih =>
    intro pre counter indices input hcnt hidx hnd hin hlen
    simp only [scanInput]
    have hl : (pre ++ [x]).length = pre.length + 1 := by simp
    have key1 := ih (pre ++ [x]) (counter.store (key x) ((counter.lookup (key x)).getD 0 + 1))
      (indices.store (key x, (counter.lookup (key x)).getD 0) (pre.length : Int))
      (input.set pre.length (pre.length : Int)) ?_ ?_ ?_ ?_ ?_
    · rw [hl, List.append_assoc, List.singleton_append, List.length_set] at key1
      simp only [List.length_cons]
      have e : pre.length + (rest.length + 1) = pre.length + 1 + rest.length := by omega
      rw [e]
      exact key1
    · intro k
      rw [GoMap.lookup_store, occurrences_snoc]
      by_cases h : key x = k
      · subst h; simp [hcnt]
      · simp [h, hcnt]
    · intro k c v
      rw [GoMap.lookup_store]
      by_cases h : (key x, (counter.lookup (key x)).getD 0) = (k, c)
      · rw [if_pos h]
        simp only [Prod.mk.injEq] at h
        obtain ⟨hk, hc⟩ := h
        rw [hcnt] at hc
        constructor
        · intro hv
          cases hv
          exact ⟨pre.length, rfl, (isOccurrence_snoc key pre x k c pre.length).mpr
            (Or.inr ⟨rfl, hk, by rw [← hk]; exact hc⟩)⟩
        · rintro ⟨p, rfl, hp⟩
          rcases (isOccurrence_snoc key pre x k c p).mp hp with h1 | ⟨h1, -, -⟩
          · have := h1.lt_occurrences
            rw [← hk] at this
            omega
          · rw [h1]
      · rw [if_neg h, hidx]
        constructor
        · rintro ⟨p, rfl, hp⟩
          exact ⟨p, rfl, hp.append [x]⟩
        · rintro ⟨p, rfl, hp⟩
          rcases (isOccurrence_snoc key pre x k c p).mp hp with h1 | ⟨-, h2, h3⟩
          · exact ⟨p, rfl, h1⟩
          · exfalso
            apply h
            rw [hcnt, h2, h3]
    · exact GoMap.nodup_store indices hnd _ _
    · intro p hp
      rw [hl] at hp
      by_cases h : p = pre.length
      · subst h
        rw [List.getElem?_set_self (by simp at hlen; omega)]
      · rw [List.getElem?_set_ne (Ne.symm h)]
        exact hin p (by omega)
    · rw [hl, List.length_set]
      simp only [List.length_cons] at hlen
      omega

theorem matches_snoc (key : α → κ) (inp pre : List α) (x : α) (output : List Int) (w : Int)
    (hlen : pre.length < output.length)
    (hout : ∀ j y, pre[j]? = some y → ∃ v, output[j]? = some v ∧
      Matches key inp (key y) (occurrences key (key y) (pre.take j)) j v)
    (hw : Matches key inp (key x) (occurrences key (key x) pre) pre.length w) :
    ∀ j y, (pre ++ [x])[j]? = some y → ∃ v, (output.set pre.length w)[j]? = some v ∧
      Matches key inp (key y) (occurrences key (key y) ((pre ++ [x]).take j)) j v := by
  intro j y hy
  rcases Nat.lt_trichotomy j pre.length with h | h | h
  · rw [List.getElem?_append_left h] at hy
    rw [List.getElem?_set_ne (by omega), List.take_append_of_le_length (Nat.le_of_lt h)]
    exact hout j y hy
  · subst h
    rw [List.getElem?_concat_length] at hy
    cases hy
    rw [List.getElem?_set_self hlen, List.take_left' rfl]
    exact ⟨w, rfl, hw⟩
  · have : (pre ++ [x])[j]? = none := List.getElem?_eq_none (by simp; omega)
    rw [this] at hy
    cases hy

/-- The second loop of `Diff`, run over the rest of the output from a state that describes
the prefix `pre`, ends in a state that describes the whole output. -/
theorem scanOutput_spec (key : α → κ) (inp : List α) (rest : List α) :
    ∀ (pre : List α) (counter : GoMap κ Nat) (indices : GoMap (κ × Nat) Int) (output : List Int),
      (∀ k, (counter.lookup k).getD 0 = occurrences key k pre) →
      (∀ k c v, indices.lookup (k, c) = some v ↔
        (∃ p : Nat, v = (p : Int) ∧ IsOccurrence key inp k c p) ∧ occurrences key k pre ≤ c) →
      (indices.map Prod.fst).Nodup →
      (∀ j y, pre[j]? = some y → ∃ v, output[j]? = some v ∧
        Matches key inp (key y) (occurrences key (key y) (pre.take j)) j v) →
      pre.length + rest.length ≤ output.length →
      (∀ k c v, (scanOutput key rest pre.length counter indices output).1.lookup (k, c) = some v ↔
          (∃ p : Nat, v = (p : Int) ∧ IsOccurrence key inp k c p) ∧
            occurrences key k (pre ++ rest) ≤ c) ∧
        ((scanOutput key rest pre.length counter indices output).1.map Prod.fst).Nodup ∧
        (scanOutput key rest pre.length counter indices output).2.length = output.length ∧
        (∀ j y, (pre ++ rest)[j]? = some y →
          ∃ v, (scanOutput key rest pre.length counter indices output).2[j]? = some v ∧
            Matches key inp (key y) (occurrences key (key y) ((pre ++ rest).take j)) j v) := by
  induction rest with
  | nil =>
    intro pre counter indices output _ hidx hnd hout _
    simp only [scanOutput, List.append_nil]
    exact ⟨hidx, hnd, trivial, hout⟩
  | cons x rest ih =>
    intro pre counter indices output hcnt hidx hnd hout hlen
    have hl : (pre ++ [x]).length = pre.length + 1 := by simp
    have hlen1 : pre.length < output.length := by simp at hlen; omega
    have hcntS : ∀ k, (GoMap.lookup (GoMap.store counter (key x)
        ((counter.lookup (key x)).getD 0 + 1)) k).getD 0 = occurrences key k (pre ++ [x]) := by
      intro k
      rw [GoMap.lookup_store, occurrences_snoc]
      by_cases h : key x = k
      · subst h; simp [hcnt]
      · simp [h, hcnt]
    have e : pre.length + (rest.length + 1) = pre.length + 1 + rest.length := by omega
    have hlen2 : ∀ w, (pre ++ [x]).length + rest.length ≤ (output.set pre.length w).length := by
      intro w
      rw [hl, List.length_set]
      simp only [List.length_cons] at hlen
      omega
    simp only [scanOutput]
    cases hlk : GoMap.lookup indices (key x, (counter.lookup (key x)).getD 0) with
    | some idx =>
      simp only []
      obtain ⟨⟨p, hp, hocc⟩, -⟩ := (hidx _ _ _).mp hlk
      rw [hcnt] at hocc
      have key1 := ih (pre ++ [x]) (counter.store (key x) ((counter.lookup (key x)).getD 0 + 1))
        (indices.delete (key x, (counter.lookup (key x)).getD 0))
        (output.set pre.length idx) hcntS ?_ (GoMap.nodup_delete indices hnd _) ?_ (hlen2 idx)
      · rw [hl, List.append_assoc, List.singleton_append, List.length_set] at key1
        exact key1
      · intro k c v
        rw [GoMap.lookup_delete, occurrences_snoc]
        by_cases h : (key x, (counter.lookup (key x)).getD 0) = (k, c)
        · rw [if_pos h]
          simp only [Prod.mk.injEq] at h
          obtain ⟨hk, hc⟩ := h
          rw [hcnt] at hc
          subst hk
          simp only [if_true]
          constructor
          · intro h1; cases h1
          · rintro ⟨-, h1⟩; omega
        · rw [if_neg h, hidx]
          by_cases hk : key x = k
          · subst hk
            rw [hcnt] at h
            simp only [if_true]
            have hne : occurrences key (key x) pre ≠ c := fun hc => h (by rw [hc])
            constructor
            · rintro ⟨h1, h2⟩; exact ⟨h1, by omega⟩
            · rintro ⟨h1, h2⟩; exact ⟨h1, by omega⟩
          · simp only [if_neg hk, Nat.add_zero]
      · apply matches_snoc key inp pre x output idx hlen1 hout
        refine ⟨?_, ?_⟩
        · intro q hq
          rw [hp, hocc.unique hq]
        · intro hle
          have := hocc.lt_occurrences
          omega
    | none =>
      simp only []
      have hno : occurrences key (key x) inp ≤ occurrences key (key x) pre := by
        by_contra hlt
        obtain ⟨p, hp⟩ := isOccurrence_exists key inp (key x) (occurrences key (key x) pre) (by omega)
        have := (hidx (key x) (occurrences key (key x) pre) (p : Int)).mpr ⟨⟨p, rfl, hp⟩, le_refl _⟩
        rw [← hcnt, hlk] at this
        cases this
      have key1 := ih (pre ++ [x]) (counter.store (key x) ((counter.lookup (key x)).getD 0 + 1))
        indices (output.set pre.length (-((pre.length : Int) + 1))) hcntS ?_ hnd ?_ (hlen2 _)
      · rw [hl, List.append_assoc, List.singleton_append, List.length_set] at key1
        exact key1
      · intro k c v
        rw [hidx, occurrences_snoc]
        by_cases hk : key x = k
        · subst hk
          simp only [if_true]
          constructor
          · rintro ⟨⟨q, hq, hocc⟩, h2⟩
            have := hocc.lt_occurrences
            exact ⟨⟨q, hq, hocc⟩, by omega⟩
          · rintro ⟨h1, h2⟩; exact ⟨h1, by omega⟩
        · simp only [if_neg hk, Nat.add_zero]
      · apply matches_snoc key inp pre x output _ hlen1 hout
        refine ⟨?_, ?_⟩
        · intro q hq
          have := hq.lt_occurrences
          omega
        · intro _
          rfl

end ScanLemmas

section CodedLemmas
variable {α κ : Type} [DecidableEq κ]

theorem scanInput_coded (key : α → κ) (d : differ α) :
    (∀ k c v, (scanInput key d.Input 0 [] [] (List.replicate d.Input.length 0)).1.lookup (k, c)
        = some v ↔ ∃ p : Nat, v = (p : Int) ∧ IsOccurrence key d.Input k c p) ∧
      ((scanInput key d.Input 0 [] [] (List.replicate d.Input.length 0)).1.map Prod.fst).Nodup ∧
      (scanInput key d.Input 0 [] [] (List.replicate d.Input.length 0)).2.length
        = d.Input.length ∧
      (∀ p, p < d.Input.length →
        (scanInput key d.Input 0 [] [] (List.replicate d.Input.length 0)).2[p]? = some (p : Int)) := by
  have h := scanInput_spec key d.Input [] [] [] (List.replicate d.Input.length 0)
    (by intro k; simp [GoMap.lookup, occurrences])
    (by
      intro k c v
      simp only [GoMap.lookup]
      constructor
      · intro h; cases h
      · rintro ⟨p, -, hp⟩
        have := hp.lt_length
        simp at this)
    (by simp) (by intro p hp; simp at hp) (by simp)
  simpa using h

theorem inputCoded_eq (key : α → κ) (d : differ α) :
    inputCoded key d = (List.range d.Input.length).map Int.ofNat := by
  obtain ⟨-, -, hlen, hget⟩ := scanInput_coded key d
  apply List.ext_getElem?
  intro p
  unfold inputCoded Diff.coded
  simp only
  by_cases hp : p < d.Input.length
  · rw [hget p hp, List.getElem?_map, List.getElem?_range hp]
    rfl
  · rw [List.getElem?_eq_none (by omega),
      List.getElem?_eq_none (by rw [List.length_map, List.length_range]; omega)]

theorem scanOutput_coded (key : α → κ) (d : differ α) :
    (∀ k c v, (Diff.coded key d).2.2.lookup (k, c) = some v ↔
        (∃ p : Nat, v = (p : Int) ∧ IsOccurrence key d.Input k c p) ∧
          occurrences key k d.Output ≤ c) ∧
      ((Diff.coded key d).2.2.map Prod.fst).Nodup ∧
      (outputCoded key d).length = d.Output.length ∧
      (∀ j y, d.Output[j]? = some y → ∃ v, (outputCoded key d)[j]? = some v ∧
        Matches key d.Input (key y) (occurrences key (key y) (d.Output.take j)) j v) := by
  obtain ⟨hidx, hnd, -, -⟩ := scanInput_coded key d
  have h := scanOutput_spec key d.Input d.Output [] []
    (scanInput key d.Input 0 [] [] (List.replicate d.Input.length 0)).1
    (List.replicate d.Output.length 0)
    (by intro k; simp [GoMap.lookup, occurrences])
    (by
      intro k c v
      rw [hidx]
      simp [occurrences])
    hnd (by intro j y hy; simp at hy) (by simp)
  unfold outputCoded Diff.coded
  simpa using h

theorem removedSet_spec (key : α → κ) (d : differ α) (c : Int) :
    ((removedSet key d).lookup c).getD false = true ↔
      ∃ (p : Nat) (x : α), c = (p : Int) ∧ d.Input[p]? = some x ∧
        occurrences key (key x) d.Output ≤ occurrences key (key x) (d.Input.take p) := by
  obtain ⟨hidx, hnd, -, -⟩ := scanOutput_coded key d
  unfold removedSet
  rw [buildRemoved_spec, GoMap.mem_values _ hnd]
  constructor
  · rintro ⟨⟨k, c1⟩, hk⟩
    obtain ⟨⟨p, hp, x, hx, hkx, hcx⟩, hle⟩ := (hidx k c1 c).mp hk
    subst hkx
    exact ⟨p, x, hp, hx, by rw [hcx]; exact hle⟩
  · rintro ⟨p, x, hp, hx, hle⟩
    exact ⟨(key x, occurrences key (key x) (d.Input.take p)),
      (hidx _ _ c).mpr ⟨⟨p, hp, isOccurrence_self key d.Input p x hx⟩, hle⟩⟩

/-- The data `Diff` hands to `diff` is resolved. -/
theorem resolved_coded (key : α → κ) (d : differ α) :
    Resolved key d (inputCoded key d) (outputCoded key d) (removedSet key d) where
  input_eq := inputCoded_eq key d
  output_len := (scanOutput_coded key d).2.2.1
  output_spec := (scanOutput_coded key d).2.2.2
  removed_spec := removedSet_spec key d

end CodedLemmas

section ResolvedLemmas
variable {α κ : Type} [DecidableEq κ] {key : α → κ} {d : differ α} {input output : List Int}
  {removed : GoMap Int Bool}

theorem index_natCast {β : Type} (xs : List β) (p : Nat) : index xs (p : Int) = xs[p]? := by
  unfold index
  simp

theorem index_eq_some {β : Type} {xs : List β} {c : Int} {x : β} (h : index xs c = some x) :
    0 ≤ c ∧ c.toNat < xs.length ∧ xs[c.toNat]? = some x := by
  unfold index at h
  by_cases hc : c < 0
  · simp [hc] at h
  · rw [if_neg hc] at h
    exact ⟨by omega, (List.getElem?_eq_some_iff.mp h).1, h⟩

/-- Every coded output entry is either the sentinel of its position or a matched input
position holding the same ordinal occurrence of the same key. -/
theorem Resolved.output_cases (hr : Resolved key d input output removed) {j : Nat} {v : Int}
    (hv : output[j]? = some v) :
    ∃ y, d.Output[j]? = some y ∧
      ((v = -((j : Int) + 1) ∧
          occurrences key (key y) d.Input ≤ occurrences key (key y) (d.Output.take j)) ∨
        ∃ p : Nat, v = (p : Int) ∧
          IsOccurrence key d.Input (key y) (occurrences key (key y) (d.Output.take j)) p) := by
  have hj : j < d.Output.length := by
    rw [← hr.output_len]; exact (List.getElem?_eq_some_iff.mp hv).1
  obtain ⟨w, hw, hm1, hm2⟩ := hr.output_spec j d.Output[j] (List.getElem?_eq_getElem hj)
  rw [hv] at hw
  cases hw
  refine ⟨d.Output[j], List.getElem?_eq_getElem hj, ?_⟩
  by_cases hle : occurrences key (key d.Output[j]) d.Input
      ≤ occurrences key (key d.Output[j]) (d.Output.take j)
  · exact Or.inl ⟨hm2 hle, hle⟩
  · obtain ⟨p, hp⟩ := isOccurrence_exists key d.Input _ _ (Nat.lt_of_not_le hle)
    exact Or.inr ⟨p, hm1 p hp, hp⟩

theorem Resolved.output_neg (hr : Resolved key d input output removed) {j : Nat} {v : Int}
    (hv : output[j]? = some v) (hneg : v < 0) : v = -((j : Int) + 1) := by
  obtain ⟨y, -, ⟨h, -⟩ | ⟨p, h, -⟩⟩ := hr.output_cases hv
  · exact h
  · omega

theorem Resolved.output_pos (hr : Resolved key d input output removed) {j : Nat} {v : Int}
    (hv : output[j]? = some v) (hpos : 0 ≤ v) :
    ∃ x y, index d.Input v = some x ∧ d.Output[j]? = some y ∧ key x = key y ∧
      (removed.lookup v).getD false = false := by
  obtain ⟨y, hy, ⟨h, -⟩ | ⟨p, h, x, hx, hk, hc⟩⟩ := hr.output_cases hv
  · omega
  · subst h
    refine ⟨x, y, by rw [index_natCast]; exact hx, hy, hk, ?_⟩
    cases hrem : (GoMap.lookup removed (p : Int)).getD false with
    | false => rfl
    | true =>
      exfalso
      obtain ⟨q, x1, hq, hx1, hle⟩ := (hr.removed_spec _).mp hrem
      have hqp : p = q := by omega
      subst hqp
      rw [hx] at hx1
      cases hx1
      rw [hk, hc] at hle
      have := (isOccurrence_self key d.Output j y hy).lt_occurrences
      omega

theorem Resolved.output_nodup (hr : Resolved key d input output removed) : output.Nodup := by
  rw [List.nodup_iff_getElem?_ne_getElem?]
  intro a b hab hb heq
  have hv : output[b]? = some output[b] := List.getElem?_eq_getElem hb
  have hu : output[a]? = some output[b] := by rw [heq, hv]
  obtain ⟨y, hy, hcase⟩ := hr.output_cases hv
  obtain ⟨z, hz, hcase1⟩ := hr.output_cases hu
  rcases hcase with ⟨h, -⟩ | ⟨p, h, hp⟩
  · rcases hcase1 with ⟨h1, -⟩ | ⟨q, h1, -⟩ <;> omega
  · rcases hcase1 with ⟨h1, -⟩ | ⟨q, h1, hq⟩
    · omega
    · have hpq : p = q := by omega
      subst hpq
      obtain ⟨hk, hc⟩ := hp.key_eq hq
      have h2 := isOccurrence_self key d.Output b y hy
      have h3 := isOccurrence_self key d.Output a z hz
      rw [← hk] at h3 hc
      rw [← hc] at h3
      have := h2.unique h3
      omega

theorem Resolved.removed_iff (hr : Resolved key d input output removed) (c : Int) :
    (removed.lookup c).getD false = true ↔
      0 ≤ c ∧ c < (d.Input.length : Int) ∧ c ∉ output := by
  constructor
  · intro hrem
    obtain ⟨p, x, hp, hx, hle⟩ := (hr.removed_spec c).mp hrem
    have hlt := (List.getElem?_eq_some_iff.mp hx).1
    refine ⟨by omega, by omega, ?_⟩
    intro hmem
    obtain ⟨j, hj⟩ := List.getElem?_of_mem hmem
    obtain ⟨x1, y, -, -, -, hfalse⟩ := hr.output_pos hj (by omega)
    rw [hrem] at hfalse
    cases hfalse
  · rintro ⟨h0, hlt, hnot⟩
    obtain ⟨p, rfl⟩ := Int.eq_ofNat_of_zero_le h0
    have hp : p < d.Input.length := by omega
    refine (hr.removed_spec _).mpr ⟨p, d.Input[p], rfl, List.getElem?_eq_getElem hp, ?_⟩
    by_contra hlt1
    obtain ⟨j, hj⟩ := isOccurrence_exists key d.Output (key d.Input[p])
      (occurrences key (key d.Input[p]) (d.Input.take p)) (by omega)
    obtain ⟨y, hy, hky, hcy⟩ := hj
    obtain ⟨v, hv, hm1, -⟩ := hr.output_spec j y hy
    rw [hky, hcy] at hm1
    have := hm1 p (isOccurrence_self key d.Input p d.Input[p] (List.getElem?_eq_getElem hp))
    subst this
    exact hnot (List.getElem?_mem hv)

end ResolvedLemmas

section LoopLemmas
variable {α κ : Type} [DecidableEq κ]

theorem index_of_bounds {β : Type} (xs : List β) (c : Int) (h0 : 0 ≤ c)
    (h1 : c < (xs.length : Int)) : ∃ x, index xs c = some x := by
  obtain ⟨p, rfl⟩ := Int.eq_ofNat_of_zero_le h0
  rw [index_natCast]
  have hp : p < xs.length := by omega
  exact ⟨xs[p], List.getElem?_eq_getElem hp⟩

theorem take_drop_cons {β : Type} {xs : List β} {n kk : Nat} {h : β} {t : List β}
    (e : (xs.drop kk).take n = h :: t) :
    ∃ m, n = m + 1 ∧ xs[kk]? = some h ∧ (xs.drop (kk + 1)).take m = t := by
  cases n with
  | zero => simp at e
  | succ m =>
    refine ⟨m, rfl, ?_⟩
    cases hd : xs.drop kk with
    | nil => rw [hd] at e; simp at e
    | cons h1 t1 =>
      rw [hd, List.take_succ_cons] at e
      injection e with e1 e2
      subst e1
      constructor
      · have := List.getElem?_drop (L := xs) (i := kk) (j := 0)
        rw [hd] at this
        simpa using this.symm
      · have : xs.drop (kk + 1) = t1 := by
          rw [← List.drop_drop, hd]
          simp
        rw [this]; exact e2

/-- The search of the moved branch finds the first position that holds the target. -/
theorem search_spec (input : List Int) (b : Int) (A : List Int) :
    ∀ (n kk : Nat) (C : List Int), (input.drop kk).take n = A ++ b :: C → b ∉ A →
      search input b n kk = some (((kk + A.length : Nat) : Int)) := by
  induction A with
  | nil =>
    intro n kk C e _
    obtain ⟨m, rfl, hget, -⟩ := take_drop_cons e
    simp [search, hget]
  | cons a0 A ih =>
    intro n kk C e hb
    obtain ⟨m, rfl, hget, htl⟩ := take_drop_cons e
    have hne : a0 ≠ b := fun h => hb (by simp [h])
    have hb1 : b ∉ A := fun h => hb (by simp [h])
    simp only [search, hget, if_neg hne]
    rw [ih m (kk + 1) C htl hb1]
    simp only [List.length_cons]
    congr 2
    omega

theorem leftover_insert (xs : List α) (codes : List Int) :
    ∀ (n kk : Nat), (∀ j, kk ≤ j → j < kk + n → codes[j]? = some (-((j : Int) + 1))) →
      kk + n ≤ xs.length →
      leftover xs codes (fun c => -1 - c) n kk = some ((xs.drop kk).take n) := by
  intro n
  induction n with
  | zero => intro kk _ _; simp [leftover]
  | succ n ih =>
    intro kk hc hlen
    have hk := hc kk (le_refl _) (by omega)
    have e : (-1 - -((kk : Int) + 1)) = (kk : Int) := by omega
    have hx : xs[kk]? = some xs[kk] := List.getElem?_eq_getElem (by omega)
    simp only [leftover, hk, e, index_natCast, hx]
    rw [ih (kk + 1) (fun j h1 h2 => hc j (by omega) (by omega)) (by omega)]
    simp only [Option.map_some']
    rw [List.drop_eq_getElem_cons (show kk < xs.length by omega), List.take_succ_cons]

theorem leftover_delete (xs : List α) (codes : List Int) :
    ∀ (n kk : Nat), kk + n ≤ codes.length →
      (∀ c ∈ (codes.drop kk).take n, (index xs c).isSome = true) →
      leftover xs codes (fun c => c) n kk = some (itemsAt xs ((codes.drop kk).take n)) := by
  intro n
  induction n with
  | zero => intro kk _ _; simp [leftover, itemsAt]
  | succ n ih =>
    intro kk hlen hall
    have hlt : kk < codes.length := by omega
    have hd : codes.drop kk = codes[kk] :: codes.drop (kk + 1) := List.drop_eq_getElem_cons hlt
    rw [hd, List.take_succ_cons] at hall ⊢
    have hc : codes[kk]? = some codes[kk] := List.getElem?_eq_getElem hlt
    obtain ⟨x, hx⟩ := Option.isSome_iff_exists.mp (hall codes[kk] (by simp))
    simp only [leftover, hc, hx]
    rw [ih (kk + 1) (by omega) (fun c hmem => hall c (List.mem_cons_of_mem _ hmem))]
    simp [itemsAt, List.filterMap_cons, hx]

end LoopLemmas

section StepLemmas
variable {α κ : Type} [DecidableEq κ] {key : α → κ} {d : differ α} {input output : List Int}
  {removed : GoMap Int Bool}

theorem take_succ_of_getElem? {β : Type} {xs : List β} {n : Nat} {a : β} (h : xs[n]? = some a) :
    xs.take (n + 1) = xs.take n ++ [a] := by
  rw [List.take_succ, h]
  rfl

/-- One iteration of the loop, from a state that satisfies the invariant and the loop guard:
it does not panic, it lowers `i + o`, it keeps the invariant, and it extends every trace of
the next state to a trace of this state. -/
theorem step_spec (hr : Resolved key d input output removed) (s : LoopState)
    (hinv : Inv d output removed s) (hi : 0 < s.i) (ho : 0 < s.o) :
    ∃ ops1 s1, step d output removed s = some (ops1, s1) ∧
      Inv d output removed s1 ∧ s1.i + s1.o < s.i + s.o ∧
      ∀ rest, Trace key d output removed (s1.input.take s1.i) s1.o rest →
        Trace key d output removed (s.input.take s.i) s.o (ops1 ++ rest) := by
  obtain ⟨inp, i, o⟩ := s
  simp only at hi ho ⊢
  obtain ⟨i, rfl⟩ : ∃ n, i = n + 1 := ⟨i - 1, by omega⟩
  obtain ⟨o, rfl⟩ : ∃ n, o = n + 1 := ⟨o - 1, by omega⟩
  obtain ⟨h1, h2, h3, h4, h5⟩ := hinv
  simp only at h1 h2 h3 h4 h5
  have hia : inp[i]? = some inp[i] := List.getElem?_eq_getElem (by omega)
  have hob : output[o]? = some output[o] := List.getElem?_eq_getElem (by omega)
  generalize inp[i] = a at hia
  generalize output[o] = b at hob
  have hL := take_succ_of_getElem? hia
  have hO := take_succ_of_getElem? hob
  rw [hL] at h3 h4 h5
  rw [hO] at h4 h5
  rw [hL]
  have haL : a ∉ inp.take i := fun h => by
    have := List.disjoint_of_nodup_append h3
    exact this h (by simp)
  have hndO : (output.take o ++ [b]).Nodup := by
    rw [← hO]
    exact List.Nodup.sublist (List.take_sublist _ _) hr.output_nodup
  have hbO : b ∉ output.take o := fun h => by
    have := List.disjoint_of_nodup_append hndO
    exact this h (by simp)
  have hlenL : (inp.take i).length = i := by
    rw [List.length_take]; omega
  obtain ⟨ha0, han, harem⟩ := h4 a (by simp)
  simp only [step, Nat.add_sub_cancel, hia, hob]
  by_cases hab : a = b
  · -- same
    subst hab
    rw [if_pos rfl]
    refine ⟨[], ⟨inp, i, o⟩, rfl, ⟨by simp only; omega, by simp only; omega, ?_, ?_, ?_⟩,
      by simp only; omega, ?_⟩
    · exact (List.nodup_append.mp h3).1
    · intro c hc
      obtain ⟨c0, cn, crem⟩ := h4 c (List.mem_append_left _ hc)
      refine ⟨c0, cn, ?_⟩
      rcases crem with h | h
      · exact Or.inl h
      · right
        rcases List.mem_append.mp h with h | h
        · exact h
        · simp only [List.mem_singleton] at h
          subst h
          exact absurd hc haL
    · intro c hc c0
      rcases List.mem_append.mp (h5 c (List.mem_append_left _ hc) c0) with h | h
      · exact h
      · simp only [List.mem_singleton] at h
        subst h
        exact absurd hc hbO
    · intro rest hrest
      obtain ⟨x, y, hx, hy, hk, hrem⟩ := hr.output_pos hob ha0
      exact Trace.same _ a o x y rest hob hx hy hk hrem hrest
  · rw [if_neg hab]
    by_cases hrem : (GoMap.lookup removed a).getD false = true
    · -- deleted
      rw [if_pos hrem]
      obtain ⟨x, hx⟩ := index_of_bounds d.Input a ha0 han
      simp only [hx]
      refine ⟨_, _, rfl, ⟨by simp only; omega, by simp only; omega, ?_, ?_, ?_⟩,
        by simp only; omega, ?_⟩
      · exact (List.nodup_append.mp h3).1
      · intro c hc
        simp only at hc ⊢
        rw [hO]
        exact h4 c (List.mem_append_left _ hc)
      · intro c hc c0
        simp only at hc ⊢
        rw [hO] at hc
        rcases List.mem_append.mp (h5 c hc c0) with h | h
        · exact h
        · simp only [List.mem_singleton] at h
          subst h
          have hcout : c ∈ output := by
            rw [← hO] at hc
            exact List.mem_of_mem_take hc
          exact absurd hcout ((hr.removed_iff c).mp hrem).2.2
      · intro rest hrest
        simp only at hrest
        have e : ((i + 1 : Nat) : Int) - 1 = ((inp.take i).length : Int) := by
          rw [hlenL]; omega
        rw [e]
        exact Trace.delete _ a b o x rest hob hab hrem hx hrest
    · rw [if_neg hrem]
      have hrem1 : (GoMap.lookup removed a).getD false = false := by
        cases h : (GoMap.lookup removed a).getD false with
        | false => rfl
        | true => exact absurd h hrem
      by_cases hb : b < 0
      · -- inserted
        rw [if_pos hb]
        have hbv := hr.output_neg hob hb
        have hoLen : o < d.Output.length := by
          rw [← hr.output_len]; omega
        have e1 : (-1 - b) = (o : Int) := by omega
        have hy : d.Output[o]? = some d.Output[o] := List.getElem?_eq_getElem hoLen
        simp only [e1, index_natCast, hy]
        refine ⟨_, _, rfl, ⟨by simp only; omega, by simp only; omega, ?_, ?_, ?_⟩,
          by simp only; omega, ?_⟩
        · simp only
          rw [hL]; exact h3
        · intro c hc
          simp only at hc ⊢
          rw [hL] at hc
          obtain ⟨c0, cn, crem⟩ := h4 c hc
          refine ⟨c0, cn, ?_⟩
          rcases crem with h | h
          · exact Or.inl h
          · right
            rcases List.mem_append.mp h with h | h
            · exact h
            · simp only [List.mem_singleton] at h
              omega
        · intro c hc c0
          simp only at hc ⊢
          rw [hL]
          exact h5 c (List.mem_append_left _ hc) c0
        · intro rest hrest
          simp only at hrest
          rw [hL] at hrest
          have e : ((i + 1 : Nat) : Int) = ((inp.take i).length : Int) + 1 := by
            rw [hlenL]; omega
          rw [e]
          exact Trace.insert _ a b o _ rest hob hab hrem1 hbv hy hrest
      · -- moved
        rw [if_neg hb]
        have hb0 : 0 ≤ b := by omega
        have hbL : b ∈ inp.take i := by
          rcases List.mem_append.mp (h5 b (by simp) hb0) with h | h
          · exact h
          · simp only [List.mem_singleton] at h
            exact absurd h.symm hab
        obtain ⟨A, B, hAB⟩ := List.append_of_mem hbL
        have hndL : (A ++ b :: B).Nodup := by
          rw [← hAB]; exact (List.nodup_append.mp h3).1
        have hbA : b ∉ A := fun h => by
          have := List.disjoint_of_nodup_append hndL
          exact this h (by simp)
        have hbB : b ∉ B := by
          have := (List.nodup_append.mp hndL).2.1
          exact (List.nodup_cons.mp this).1
        have hfull : inp.take (i + 1) = A ++ b :: (B ++ [a]) := by
          rw [hL, hAB]; simp
        have hlenAB : A.length + 1 + B.length = i := by
          have := congrArg List.length hAB
          rw [hlenL] at this
          simp at this
          omega
        have hsearch : search inp b (i + 1) 0 = some ((A.length : Nat) : Int) := by
          have := search_spec inp b A (i + 1) 0 (B ++ [a]) (by simpa using hfull) hbA
          simpa using this
        have hnew : inp.take A.length ++ (inp.take (i + 1)).drop (A.length + 1)
            = A ++ (B ++ [a]) := by
          have t1 : inp.take A.length = A := by
            have : inp.take A.length = (inp.take (i + 1)).take A.length := by
              rw [List.take_take, Nat.min_eq_left (by omega)]
            rw [this, hfull, List.take_left' rfl]
          rw [t1, hfull]
          congr 1
          have : A ++ b :: (B ++ [a]) = (A ++ [b]) ++ (B ++ [a]) := by simp
          rw [this, List.drop_left' (by simp)]
        have hneg : ¬ ((A.length : Int) < 0) := by omega
        simp only [hsearch, hneg, if_false, Int.toNat_ofNat, hnew]
        have htake : (A ++ (B ++ [a])).take i = A ++ (B ++ [a]) := by
          apply List.take_of_length_le
          simp; omega
        have hsub : (A ++ (B ++ [a])).Sublist (A ++ b :: (B ++ [a])) :=
          List.Sublist.append (List.Sublist.refl A) (List.sublist_cons_self b _)
        have hnd2 : (A ++ b :: (B ++ [a])).Nodup := by
          rw [← hfull, hL]; exact h3
        have hmem2 : ∀ c, c ∈ A ++ b :: (B ++ [a]) → c ≠ b → c ∈ A ++ (B ++ [a]) := by
          intro c hc hne
          simp only [List.mem_append, List.mem_cons, List.mem_singleton] at hc ⊢
          tauto
        have hfull2 : inp.take i ++ [a] = A ++ b :: (B ++ [a]) := by
          rw [← hL]; exact hfull
        have hbnot : b ∉ A ++ (B ++ [a]) := by
          simp only [List.mem_append, List.mem_singleton, not_or]
          exact ⟨hbA, hbB, fun h => hab h.symm⟩
        refine ⟨_, _, rfl, ⟨?_, by simp only; omega, ?_, ?_, ?_⟩, by simp only; omega, ?_⟩
        · simp only [List.length_append, List.length_singleton]; omega
        · simp only
          rw [htake]
          exact List.Nodup.sublist hsub hnd2
        · intro c hc
          simp only at hc ⊢
          rw [htake] at hc
          have hc1 : c ∈ inp.take i ++ [a] := by
            rw [hfull2]; exact hsub.subset hc
          obtain ⟨c0, cn, crem⟩ := h4 c hc1
          refine ⟨c0, cn, ?_⟩
          rcases crem with h | h
          · exact Or.inl h
          · right
            rcases List.mem_append.mp h with h | h
            · exact h
            · simp only [List.mem_singleton] at h
              subst h
              exact absurd hc hbnot
        · intro c hc c0
          simp only at hc ⊢
          rw [htake]
          have hc1 := h5 c (List.mem_append_left _ hc) c0
          rw [hfull2] at hc1
          apply hmem2 c hc1
          intro h
          subst h
          exact hbO hc
        · intro rest hrest
          simp only at hrest
          rw [htake] at hrest
          rw [hfull2]
          obtain ⟨x, y, hx, hy, hk, hremb⟩ := hr.output_pos hob hb0
          have e : ((i + 1 : Nat) : Int) - 1 - (A.length : Int) = (B.length : Int) + 1 := by
            omega
          rw [e]
          exact Trace.move A B a b o x y rest hob hab hrem1 hremb hbA hx hy hk hrest

end StepLemmas

section RunLemmas
variable {α κ : Type} [DecidableEq κ] {key : α → κ} {d : differ α} {input output : List Int}
  {removed : GoMap Int Bool}

/-- The code after the loop, from a state that satisfies the invariant and fails the guard. -/
theorem finish_spec (hr : Resolved key d input output removed) (s : LoopState)
    (hinv : Inv d output removed s) (hg : ¬ (0 < s.i ∧ 0 < s.o)) :
    ∃ ops, finish d output s = some ops ∧
      Trace key d output removed (s.input.take s.i) s.o ops := by
  obtain ⟨inp, i, o⟩ := s
  obtain ⟨h1, h2, h3, h4, h5⟩ := hinv
  simp only at h1 h2 h3 h4 h5 hg ⊢
  unfold finish
  simp only
  by_cases ho : 0 < o
  · have hi : i = 0 := by omega
    subst hi
    have hcodes : ∀ kk, kk < o → output[kk]? = some (-((kk : Int) + 1)) := by
      intro kk hkk
      have hget : output[kk]? = some output[kk] := List.getElem?_eq_getElem (by omega)
      have hmem : output[kk] ∈ output.take o := by
        rw [List.mem_iff_getElem?]
        exact ⟨kk, by rw [List.getElem?_take_of_lt hkk]; exact hget⟩
      have hneg : output[kk] < 0 := by
        by_contra hge
        have := h5 _ hmem (by omega)
        simp at this
      rw [hget, hr.output_neg hget hneg]
    have hlen : o ≤ d.Output.length := by rw [← hr.output_len]; exact h2
    have hlo := leftover_insert d.Output output o 0
      (fun j _ hj => hcodes j (by omega)) (by omega)
    rw [if_pos ho, hlo]
    simp only [List.drop_zero, Option.map_some', lt_self_iff_false, if_false, List.take_zero,
      List.append_nil]
    exact ⟨_, rfl, Trace.insertAll o ho hlen hcodes⟩
  · have ho0 : o = 0 := by omega
    subst ho0
    by_cases hi : 0 < i
    · have hall : ∀ c ∈ inp.take i,
          (GoMap.lookup removed c).getD false = true ∧ (index d.Input c).isSome = true := by
        intro c hc
        obtain ⟨c0, cn, crem⟩ := h4 c hc
        obtain ⟨x, hx⟩ := index_of_bounds d.Input c c0 cn
        refine ⟨?_, by rw [hx]; rfl⟩
        rcases crem with h | h
        · exact h
        · simp at h
      have hlo := leftover_delete d.Input inp i 0 (by omega)
        (fun c hc => (hall c (by simpa using hc)).2)
      rw [if_neg ho, if_pos hi, hlo]
      simp only [List.drop_zero, Option.map_some', List.nil_append]
      refine ⟨_, rfl, Trace.deleteAll _ ?_ hall⟩
      intro hnil
      have := congrArg List.length hnil
      rw [List.length_take, List.length_nil] at this
      omega
    · have hi0 : i = 0 := by omega
      subst hi0
      simp only [lt_self_iff_false, if_false, List.take_zero, List.append_nil]
      exact ⟨_, rfl, Trace.done⟩

/-- The loop of `diff` with enough budget returns, and what it returns is a trace. -/
theorem run_trace (hr : Resolved key d input output removed) :
    ∀ (fuel : Nat) (s : LoopState), Inv d output removed s → s.i + s.o < fuel →
      ∃ ops, run d output removed fuel s = some ops ∧
        Trace key d output removed (s.input.take s.i) s.o ops := by
  intro fuel
  induction fuel with
  | zero => intro s _ h; omega
  | succ fuel ih =>
    intro s hinv hfuel
    unfold run
    by_cases hg : 0 < s.i ∧ 0 < s.o
    · rw [if_pos hg]
      obtain ⟨ops1, s1, hstep, hinv1, hlt, htr⟩ := step_spec hr s hinv hg.1 hg.2
      obtain ⟨rest, hrun, hrest⟩ := ih s1 hinv1 (by omega)
      rw [hstep]
      simp only [hrun, Option.map_some']
      exact ⟨_, rfl, htr rest hrest⟩
    · rw [if_neg hg]
      exact finish_spec hr s hinv hg

/-- The state in which `diff` enters its loop satisfies the invariant. -/
theorem inv_init (hr : Resolved key d input output removed) :
    Inv d output removed { input := input, i := input.length, o := output.length } := by
  have hlen : input.length = d.Input.length := by
    rw [hr.input_eq, List.length_map, List.length_range]
  have hmem : ∀ c, c ∈ input ↔ 0 ≤ c ∧ c < (d.Input.length : Int) := by
    intro c
    rw [hr.input_eq, List.mem_map]
    constructor
    · rintro ⟨p, hp, rfl⟩
      rw [List.mem_range] at hp
      simp only [Int.ofNat_eq_coe]
      omega
    · rintro ⟨h0, h1⟩
      obtain ⟨p, rfl⟩ := Int.eq_ofNat_of_zero_le h0
      exact ⟨p, List.mem_range.mpr (by omega), rfl⟩
  refine ⟨le_refl _, le_refl _, ?_, ?_, ?_⟩
  · simp only [List.take_length]
    rw [hr.input_eq]
    exact List.Nodup.map (fun a b h => by simpa using h) (List.nodup_range _)
  · intro c hc
    simp only [List.take_length] at hc ⊢
    obtain ⟨h0, h1⟩ := (hmem c).mp hc
    refine ⟨h0, h1, ?_⟩
    by_cases hout : c ∈ output
    · exact Or.inr hout
    · exact Or.inl ((hr.removed_iff c).mpr ⟨h0, h1, hout⟩)
  · intro c hc c0
    simp only [List.take_length] at hc ⊢
    obtain ⟨j, hj⟩ := List.getElem?_of_mem hc
    obtain ⟨x, y, hx, -, -, -⟩ := hr.output_pos hj c0
    have := index_eq_some hx
    exact (hmem c).mpr ⟨c0, by omega⟩

/-- The method `diff` returns on resolved data, and what it returns is a trace. -/
theorem diff_trace (hr : Resolved key d input output removed) :
    ∃ ops, diff d input output removed = some ops ∧
      Trace key d output removed input output.length ops := by
  have h := run_trace hr (input.length + output.length + 1)
    { input := input, i := input.length, o := output.length } (inv_init hr) (by simp only; omega)
  simpa [diff] using h

/-- The function `Edits` returns, and what it returns is a trace from the identity coding. -/
theorem Edits_trace (key : α → κ) (inp out : List α) :
    ∃ ops, Edits key inp out = some ops ∧
      Trace key { Input := inp, Output := out }
        (outputCoded key { Input := inp, Output := out })
        (removedSet key { Input := inp, Output := out })
        ((List.range inp.length).map Int.ofNat) out.length ops := by
  have hr := resolved_coded key { Input := inp, Output := out }
  obtain ⟨ops, h1, h2⟩ := diff_trace hr
  rw [hr.output_len] at h2
  rw [hr.input_eq] at h2
  exact ⟨ops, h1, h2⟩

end RunLemmas

section ConvergeLemmas
variable {α κ : Type} {key : α → κ} {d : differ α} {output : List Int}
  {removed : GoMap Int Bool}

theorem itemsAt_append (xs : List α) (L M : List Int) :
    itemsAt xs (L ++ M) = itemsAt xs L ++ itemsAt xs M := by
  simp [itemsAt, List.filterMap_append]

theorem itemsAt_singleton (xs : List α) (a : Int) (x : α) (h : index xs a = some x) :
    itemsAt xs [a] = [x] := by
  simp [itemsAt, List.filterMap_cons, h]

theorem itemsAt_cons (xs : List α) (a : Int) (L : List Int) (x : α) (h : index xs a = some x) :
    itemsAt xs (a :: L) = x :: itemsAt xs L := by
  simp [itemsAt, List.filterMap_cons, h]

theorem itemsAt_length (xs : List α) (L : List Int)
    (h : ∀ c ∈ L, (index xs c).isSome = true) : (itemsAt xs L).length = L.length := by
  induction L with
  | nil => rfl
  | cons a L ih =>
    obtain ⟨x, hx⟩ := Option.isSome_iff_exists.mp (h a (by simp))
    rw [itemsAt_cons xs a L x hx]
    simp only [List.length_cons]
    rw [ih (fun c hc => h c (List.mem_cons_of_mem _ hc))]

/-- Every code of the unprocessed input of a trace is a valid input position. -/
theorem Trace.valid {L : List Int} {o : Nat} {ops : List (Op α)}
    (h : Trace key d output removed L o ops) : ∀ c ∈ L, (index d.Input c).isSome = true := by
  induction h with
  | done => intro c hc; simp at hc
  | insertAll o _ _ _ => intro c hc; simp at hc
  | deleteAll L _ hall => intro c hc; exact (hall c hc).2
  | same L a o x y ops _ hx _ _ _ _ ih =>
    intro c hc
    rcases List.mem_append.mp hc with h | h
    · exact ih c h
    · simp only [List.mem_singleton] at h
      subst h; rw [hx]; rfl
  | delete L a b o x ops _ _ _ hx _ ih =>
    intro c hc
    rcases List.mem_append.mp hc with h | h
    · exact ih c h
    · simp only [List.mem_singleton] at h
      subst h; rw [hx]; rfl
  | insert L a b o y ops _ _ _ _ _ _ ih => exact ih
  | move A B a b o x y ops _ _ _ _ _ hx _ _ _ ih =>
    intro c hc
    simp only [List.mem_append, List.mem_cons, List.mem_singleton, List.not_mem_nil,
      or_false] at hc
    rcases hc with h | h | h | h
    · exact ih c (by simp [h])
    · subst h; rw [hx]; rfl
    · exact ih c (by simp [h])
    · exact ih c (by simp [h])

theorem applyOp_splice_insert (L S : List α) (ys : List α) (n : Nat) (hn : n = L.length) :
    applyOp (Op.splice (n : Int) [] ys) (L ++ S) = some (L ++ (ys ++ S)) := by
  subst hn
  simp [applyOp]

theorem applyOp_splice_delete (L S : List α) (xs : List α) (n : Nat) (hn : n = L.length) :
    applyOp (Op.splice (n : Int) xs []) (L ++ (xs ++ S)) = some (L ++ S) := by
  subst hn
  simp [applyOp]

theorem applyOp_move_one (A B S : List α) (x : α) (n m : Nat) (hn : n = A.length)
    (hm : m = B.length) :
    applyOp (Op.move (n : Int) 1 (m : Int)) (A ++ x :: (B ++ S)) = some (A ++ (B ++ x :: S)) := by
  subst hn hm
  have e1 : (A.length + 1 : Nat) = (A ++ [x]).length := by simp
  have e2 : A ++ x :: (B ++ S) = (A ++ [x]) ++ (B ++ S) := by simp
  simp only [applyOp, Int.toNat_ofNat, Int.toNat_one]
  rw [if_pos]
  · simp only [Option.some.injEq]
    have t1 : (A ++ x :: (B ++ S)).take A.length = A := List.take_left' rfl
    have t2 : ((A ++ x :: (B ++ S)).drop A.length).take 1 = [x] := by
      rw [List.drop_left' rfl]; rfl
    have t3 : ((A ++ x :: (B ++ S)).drop (A.length + 1)).take B.length = B := by
      rw [e2, e1, List.drop_left' rfl, List.take_left' rfl]
    have t4 : (A ++ x :: (B ++ S)).drop (A.length + 1 + B.length) = S := by
      have : A ++ x :: (B ++ S) = (A ++ [x] ++ B) ++ S := by simp
      rw [this, List.drop_left' (by simp; omega)]
    rw [t1, t2, t3, t4]
    simp
  · refine ⟨by omega, by omega, by omega, ?_⟩
    simp
    omega

end ConvergeLemmas

section ConvergeMain
variable {α κ : Type} {key : α → κ} {d : differ α} {output : List Int}
  {removed : GoMap Int Bool}

theorem map_take_succ (key : α → κ) (xs : List α) (o : Nat) (y : α) (h : xs[o]? = some y) :
    (xs.take (o + 1)).map key = (xs.take o).map key ++ [key y] := by
  rw [take_succ_of_getElem? h, List.map_append]
  rfl

/-- Applying a trace to the unprocessed input items followed by any suffix `S` yields items
that agree by key with the first `o` outputs, followed by `S` untouched. -/
theorem Trace.converges {L : List Int} {o : Nat} {ops : List (Op α)}
    (h : Trace key d output removed L o ops) :
    ∀ S : List α, ∃ R, applyOps ops (itemsAt d.Input L ++ S) = some (R ++ S) ∧
      R.map key = (d.Output.take o).map key := by
  induction h with
  | done =>
    intro S
    exact ⟨[], rfl, rfl⟩
  | insertAll o _ _ _ =>
    intro S
    refine ⟨d.Output.take o, ?_, rfl⟩
    have := applyOp_splice_insert ([] : List α) S (d.Output.take o) 0 rfl
    simp only [List.nil_append, Nat.cast_zero] at this
    simp only [applyOps, itemsAt, List.filterMap_nil, List.nil_append, this]
  | deleteAll L _ hall =>
    intro S
    refine ⟨[], ?_, rfl⟩
    have := applyOp_splice_delete ([] : List α) S (itemsAt d.Input L) 0 rfl
    simp only [List.nil_append, Nat.cast_zero] at this
    simp only [applyOps, List.nil_append, this]
  | same L a o x y ops _ hx hy hk _ _ ih =>
    intro S
    obtain ⟨R, hR, hRk⟩ := ih (x :: S)
    refine ⟨R ++ [x], ?_, ?_⟩
    · rw [itemsAt_append, itemsAt_singleton _ a x hx]
      simpa using hR
    · rw [map_take_succ key _ o y hy, List.map_append, hRk, List.map_singleton, hk]
  | delete L a b o x ops _ _ _ hx htr ih =>
    intro S
    obtain ⟨R, hR, hRk⟩ := ih S
    refine ⟨R, ?_, hRk⟩
    rw [itemsAt_append, itemsAt_singleton _ a x hx]
    have hlen := itemsAt_length d.Input L htr.valid
    have := applyOp_splice_delete (itemsAt d.Input L) S [x] L.length hlen.symm
    simp only [applyOps, List.append_assoc, this]
    exact hR
  | insert L a b o y ops _ _ _ _ hy htr ih =>
    intro S
    obtain ⟨R, hR, hRk⟩ := ih (y :: S)
    refine ⟨R ++ [y], ?_, ?_⟩
    · have hlen := itemsAt_length d.Input (L ++ [a]) htr.valid
      have := applyOp_splice_insert (itemsAt d.Input (L ++ [a])) S [y] (L.length + 1)
        (by rw [hlen]; simp)
      simp only [Nat.cast_add, Nat.cast_one] at this
      simp only [applyOps, this]
      simpa using hR
    · rw [map_take_succ key _ o y hy, List.map_append, hRk, List.map_singleton]
  | move A B a b o x y ops _ _ _ _ _ hx hy hk htr ih =>
    intro S
    obtain ⟨R, hR, hRk⟩ := ih (x :: S)
    refine ⟨R ++ [x], ?_, ?_⟩
    · have hvalid := htr.valid
      have hlenA := itemsAt_length d.Input A (fun c hc => hvalid c (by simp [hc]))
      have hlenB := itemsAt_length d.Input (B ++ [a])
        (fun c hc => hvalid c (List.mem_append_right _ hc))
      have := applyOp_move_one (itemsAt d.Input A) (itemsAt d.Input (B ++ [a])) S x
        A.length (B.length + 1) hlenA.symm (by rw [hlenB]; simp)
      simp only [Nat.cast_add, Nat.cast_one] at this
      have e : itemsAt d.Input (A ++ b :: (B ++ [a])) ++ S
          = itemsAt d.Input A ++ x :: (itemsAt d.Input (B ++ [a]) ++ S) := by
        rw [itemsAt_append, itemsAt_cons _ b _ x hx]
        simp
      rw [e]
      simp only [applyOps, this]
      rw [itemsAt_append, List.append_assoc] at hR
      simpa using hR
    · rw [map_take_succ key _ o y hy, List.map_append, hRk, List.map_singleton, hk]

theorem itemsAt_identity (xs : List α) :
    itemsAt xs ((List.range xs.length).map Int.ofNat) = xs := by
  induction xs using List.reverseRecOn with
  | nil => rfl
  | append_singleton pre x ih =>
    have hl : (pre ++ [x]).length = pre.length + 1 := by simp
    rw [hl, List.range_succ, List.map_append, itemsAt_append]
    have h1 : itemsAt (pre ++ [x]) ((List.range pre.length).map Int.ofNat) = pre := by
      conv_rhs => rw [← ih]
      unfold itemsAt
      apply List.filterMap_congr
      intro c hc
      obtain ⟨p, hp, rfl⟩ := List.mem_map.mp hc
      rw [List.mem_range] at hp
      simp only [Int.ofNat_eq_coe, index_natCast]
      rw [List.getElem?_append_left hp]
    have h2 : itemsAt (pre ++ [x]) ([pre.length].map Int.ofNat) = [x] := by
      apply itemsAt_singleton
      simp only [Int.ofNat_eq_coe, index_natCast]
      exact List.getElem?_concat_length pre x
    rw [h1, h2]

end ConvergeMain

section ShapeLemmas
variable {α κ : Type} {key : α → κ} {d : differ α} {output : List Int}
  {removed : GoMap Int Bool}

/-- A trace from output cursor `0` is empty or the single bulk deletion. -/
theorem Trace.of_zero {L : List Int} {o : Nat} {ops : List (Op α)}
    (h : Trace key d output removed L o ops) (ho : o = 0) :
    (L = [] ∧ ops = []) ∨ (L ≠ [] ∧ ops = [Op.splice 0 (itemsAt d.Input L) []]) := by
  cases h with
  | done => exact Or.inl ⟨rfl, rfl⟩
  | insertAll o h0 _ _ => omega
  | deleteAll L hne _ => exact Or.inr ⟨hne, rfl⟩
  | same => omega
  | delete => omega
  | insert => omega
  | move => omega

/-- A trace from an empty unprocessed input is empty or the single bulk insertion. -/
theorem Trace.of_nil {L : List Int} {o : Nat} {ops : List (Op α)}
    (h : Trace key d output removed L o ops) (hL : L = []) :
    (o = 0 ∧ ops = []) ∨ (0 < o ∧ ops = [Op.splice 0 [] (d.Output.take o)]) := by
  cases h with
  | done => exact Or.inl ⟨rfl, rfl⟩
  | insertAll o h0 _ _ => exact Or.inr ⟨h0, rfl⟩
  | deleteAll L hne _ => exact absurd hL hne
  | same => simp at hL
  | delete => simp at hL
  | insert => simp at hL
  | move => simp at hL

end ShapeLemmas

section IdentityLemmas
variable {α κ : Type} [DecidableEq κ]

theorem occurrences_congr (key : α → κ) (k : κ) :
    ∀ (xs ys : List α), xs.map key = ys.map key →
      occurrences key k xs = occurrences key k ys := by
  intro xs
  induction xs with
  | nil =>
    intro ys h
    cases ys with
    | nil => rfl
    | cons y ys => simp at h
  | cons x xs ih =>
    intro ys h
    cases ys with
    | nil => simp at h
    | cons y ys =>
      simp only [List.map_cons, List.cons.injEq] at h
      have := ih ys h.2
      unfold occurrences at this ⊢
      simp only [List.countP_cons, this, h.1]

theorem outputCoded_identity (key : α → κ) (inp out : List α)
    (h : out.map key = inp.map key) :
    outputCoded key { Input := inp, Output := out } = (List.range inp.length).map Int.ofNat := by
  have hr := resolved_coded key { Input := inp, Output := out }
  have hlen : out.length = inp.length := by
    have := congrArg List.length h
    simpa using this
  apply List.ext_getElem?
  intro j
  by_cases hj : j < inp.length
  · have hy : out[j]? = some out[j] := List.getElem?_eq_getElem (by omega)
    have hx : inp[j]? = some inp[j] := List.getElem?_eq_getElem hj
    obtain ⟨v, hv, hm, -⟩ := hr.output_spec j out[j] hy
    have hk : key inp[j] = key out[j] := by
      have h1 : (out.map key)[j]? = (inp.map key)[j]? := by rw [h]
      rw [List.getElem?_map, List.getElem?_map, hy, hx] at h1
      simp only [Option.map_some', Option.some.injEq] at h1
      exact h1.symm
    have hocc : IsOccurrence key inp (key out[j])
        (occurrences key (key out[j]) (out.take j)) j := by
      refine ⟨inp[j], hx, hk, ?_⟩
      apply occurrences_congr
      rw [List.map_take, List.map_take, h]
    rw [hv, hm j hocc, List.getElem?_map, List.getElem?_range hj]
    rfl
  · rw [List.getElem?_eq_none (by rw [hr.output_len]; simp only; omega),
      List.getElem?_eq_none (by rw [List.length_map, List.length_range]; omega)]

theorem run_identity (d : differ α) (output : List Int) (removed : GoMap Int Bool)
    (inp0 : List Int) :
    ∀ (m fuel : Nat), m < fuel → (∀ j, j < m → ∃ a, inp0[j]? = some a ∧ output[j]? = some a) →
      run d output removed fuel { input := inp0, i := m, o := m } = some [] := by
  intro m
  induction m with
  | zero =>
    intro fuel hf _
    obtain ⟨f, rfl⟩ : ∃ f, fuel = f + 1 := ⟨fuel - 1, by omega⟩
    simp [run, finish]
  | succ m ih =>
    intro fuel hf hall
    obtain ⟨f, rfl⟩ : ∃ f, fuel = f + 1 := ⟨fuel - 1, by omega⟩
    obtain ⟨a, ha1, ha2⟩ := hall m (by omega)
    have hrec := ih f (by omega) (fun j hj => hall j (by omega))
    simp only [run, Nat.zero_lt_succ, and_self, if_true, step, Nat.add_sub_cancel, ha1, ha2,
      hrec, Option.map_some', List.nil_append]

end IdentityLemmas

section ReorderLemmas
variable {α κ : Type} {key : α → κ} {d : differ α} {output : List Int}
  {removed : GoMap Int Bool}

/-- With nothing removed and nothing unmatched, a trace that starts with as many inputs as
outputs consists of moves only. -/
theorem Trace.only_moves {L : List Int} {o : Nat} {ops : List (Op α)}
    (h : Trace key d output removed L o ops)
    (hrem : ∀ c, (removed.lookup c).getD false = false)
    (hpos : ∀ (j : Nat) (v : Int), output[j]? = some v → 0 ≤ v) :
    L.length = o → ∀ op ∈ ops, ∃ offset count distance, op = Op.move offset count distance := by
  induction h with
  | done => intro _ op hop; simp at hop
  | insertAll o h0 _ _ => intro hl; simp at hl; omega
  | deleteAll L hne hall =>
    intro hl
    exact absurd (List.length_eq_zero.mp hl) hne
  | same L a o x y ops _ _ _ _ _ _ ih =>
    intro hl
    exact ih (by simpa using hl)
  | delete L a b o x ops _ _ hr _ _ _ =>
    intro _
    rw [hrem a] at hr
    cases hr
  | insert L a b o y ops hb _ _ hbv _ _ _ =>
    intro _
    have := hpos o b hb
    omega
  | move A B a b o x y ops _ _ _ _ _ _ _ _ _ ih =>
    intro hl op hop
    rcases List.mem_cons.mp hop with h | h
    · exact ⟨_, _, _, h⟩
    · refine ih ?_ op h
      simp only [List.length_append, List.length_cons, List.length_singleton,
        List.length_nil] at hl ⊢
      omega

/-- Every splice of a trace deletes or inserts, never both and never nothing. -/
theorem Trace.splice_pure {L : List Int} {o : Nat} {ops : List (Op α)}
    (h : Trace key d output removed L o ops) :
    ∀ (offset : Int) (before after : List α), Op.splice offset before after ∈ ops →
      (before = [] ∧ after ≠ []) ∨ (before ≠ [] ∧ after = []) := by
  induction h with
  | done => intro _ _ _ hop; simp at hop
  | insertAll o h0 hlen _ =>
    intro offset before after hop
    simp only [List.mem_singleton, Op.splice.injEq] at hop
    obtain ⟨-, rfl, rfl⟩ := hop
    left
    refine ⟨rfl, ?_⟩
    intro hnil
    have := congrArg List.length hnil
    rw [List.length_take] at this
    simp only [List.length_nil] at this
    omega
  | deleteAll L hne hall =>
    intro offset before after hop
    simp only [List.mem_singleton, Op.splice.injEq] at hop
    obtain ⟨-, rfl, rfl⟩ := hop
    right
    refine ⟨?_, rfl⟩
    intro hnil
    have := congrArg List.length hnil
    rw [itemsAt_length _ _ (fun c hc => (hall c hc).2)] at this
    exact hne (List.length_eq_zero.mp this)
  | same L a o x y ops _ _ _ _ _ _ ih => exact ih
  | delete L a b o x ops _ _ _ _ _ ih =>
    intro offset before after hop
    rcases List.mem_cons.mp hop with h | h
    · simp only [Op.splice.injEq] at h
      obtain ⟨-, rfl, rfl⟩ := h
      exact Or.inr ⟨by simp, rfl⟩
    · exact ih offset before after h
  | insert L a b o y ops _ _ _ _ _ _ ih =>
    intro offset before after hop
    rcases List.mem_cons.mp hop with h | h
    · simp only [Op.splice.injEq] at h
      obtain ⟨-, rfl, rfl⟩ := h
      exact Or.inl ⟨rfl, by simp⟩
    · exact ih offset before after h
  | move A B a b o x y ops _ _ _ _ _ _ _ _ _ ih =>
    intro offset before after hop
    rcases List.mem_cons.mp hop with h | h
    · cases h
    · exact ih offset before after h

end ReorderLemmas

section PermLemmas
variable {α κ : Type} [DecidableEq κ]

theorem occurrences_eq_count (key : α → κ) (k : κ) (xs : List α) :
    occurrences key k xs = (xs.map key).count k := by
  induction xs with
  | nil => rfl
  | cons x xs ih =>
    unfold occurrences at ih ⊢
    rw [List.map_cons, List.count_cons, List.countP_cons, ih]
    by_cases h : key x = k <;> simp [h]

theorem occurrences_perm (key : α → κ) (k : κ) (xs ys : List α)
    (h : (xs.map key).Perm (ys.map key)) : occurrences key k xs = occurrences key k ys := by
  rw [occurrences_eq_count, occurrences_eq_count]
  exact h.count_eq k

end PermLemmas

section EffectLemmas
variable {α κ : Type} {key : α → κ} {d : differ α} {output : List Int}
  {removed : GoMap Int Bool}

theorem unmatched_succ (out : List α) (output : List Int) (o : Nat) (y : α) (b : Int)
    (hy : out[o]? = some y) (hb : output[o]? = some b) :
    unmatched out output (o + 1) = unmatched out output o ++ (if b < 0 then [y] else []) := by
  have hz : (out.zip output)[o]? = some (y, b) := by
    rw [List.getElem?_zip_eq_some]
    exact ⟨hy, hb⟩
  unfold unmatched
  rw [take_succ_of_getElem? hz, List.filter_append, List.map_append]
  by_cases h : b < 0 <;> simp [h]

theorem unmatched_all (out : List α) (output : List Int) :
    ∀ o : Nat, o ≤ out.length → (∀ kk, kk < o → output[kk]? = some (-((kk : Int) + 1))) →
      unmatched out output o = out.take o := by
  intro o
  induction o with
  | zero => intro _ _; simp [unmatched]
  | succ o ih =>
    intro hlen hall
    have hy : out[o]? = some out[o] := List.getElem?_eq_getElem (by omega)
    have hneg : (-((o : Int) + 1)) < 0 := by omega
    rw [unmatched_succ out output o _ _ hy (hall o (by omega)),
      ih (by omega) (fun kk hkk => hall kk (by omega)), take_succ_of_getElem? hy, if_pos hneg]

/-- The items deleted by a trace are the items at the removed codes of its unprocessed
input. -/
theorem Trace.deleted_perm {L : List Int} {o : Nat} {ops : List (Op α)}
    (h : Trace key d output removed L o ops) :
    (deleted ops).Perm
      (itemsAt d.Input (L.filter (fun c => (removed.lookup c).getD false))) := by
  induction h with
  | done => exact List.Perm.refl _
  | insertAll o _ _ _ => simp [deleted, itemsAt]
  | deleteAll L _ hall =>
    have : L.filter (fun c => (removed.lookup c).getD false) = L :=
      List.filter_eq_self.mpr (fun c hc => (hall c hc).1)
    rw [this]
    simp [deleted]
  | same L a o x y ops _ _ _ _ hrem _ ih =>
    rw [List.filter_append]
    simpa [List.filter_cons, hrem] using ih
  | delete L a b o x ops _ _ hrem hx _ ih =>
    rw [List.filter_append, itemsAt_append]
    have : itemsAt d.Input ([a].filter (fun c => (removed.lookup c).getD false)) = [x] := by
      simp only [List.filter_cons, hrem, if_true, List.filter_nil]
      exact itemsAt_singleton _ a x hx
    rw [this]
    simp only [deleted, List.singleton_append]
    exact (List.Perm.cons x ih).trans (List.perm_append_singleton x _).symm
  | insert L a b o y ops _ _ _ _ _ _ ih =>
    simpa [deleted] using ih
  | move A B a b o x y ops _ _ _ hremb _ _ _ _ _ ih =>
    rw [List.filter_append] at ih ⊢
    simpa [deleted, List.filter_cons, hremb] using ih

/-- The items inserted by a trace are the unmatched items among its first `o` outputs. -/
theorem Trace.inserted_perm {L : List Int} {o : Nat} {ops : List (Op α)}
    (h : Trace key d output removed L o ops) :
    (inserted ops).Perm (unmatched d.Output output o) := by
  induction h with
  | done => simp [inserted, unmatched]
  | insertAll o _ hlen hall =>
    rw [unmatched_all d.Output output o hlen hall]
    simp [inserted]
  | deleteAll L _ _ => simp [inserted, unmatched]
  | same L a o x y ops hb hx hy _ _ _ ih =>
    rw [unmatched_succ _ _ o y a hy hb]
    have := (index_eq_some hx).1
    have hneg : ¬ a < 0 := by omega
    simpa [hneg] using ih
  | delete L a b o x ops _ _ _ _ _ ih =>
    simpa [inserted] using ih
  | insert L a b o y ops hb _ _ hbv hy _ ih =>
    rw [unmatched_succ _ _ o y b hy hb]
    have hneg : b < 0 := by omega
    simp only [inserted, hneg, if_true, List.singleton_append]
    exact (List.Perm.cons y ih).trans (List.perm_append_singleton y _).symm
  | move A B a b o x y ops hb _ _ _ _ hx hy _ _ ih =>
    rw [unmatched_succ _ _ o y b hy hb]
    have := (index_eq_some hx).1
    have hneg : ¬ b < 0 := by omega
    simpa [inserted, hneg] using ih

end EffectLemmas

section CountLemmas
variable {α κ : Type} [DecidableEq κ] {key : α → κ} {d : differ α} {input output : List Int}
  {removed : GoMap Int Bool}

theorem length_filter_add {β : Type} (p q : β → Bool) (hq : ∀ x, q x = !p x) (l : List β) :
    (l.filter p).length + (l.filter q).length = l.length := by
  induction l with
  | nil => rfl
  | cons x l ih =>
    simp only [List.filter_cons, hq x]
    cases hp : p x <;> simp <;> omega

theorem unmatched_length (out : List α) :
    ∀ output : List Int, out.length = output.length →
      (unmatched out output out.length).length
        = (output.filter (fun c => decide (c < 0))).length := by
  induction out with
  | nil =>
    intro output h
    cases output with
    | nil => rfl
    | cons c cs => simp at h
  | cons y ys ih =>
    intro output h
    cases output with
    | nil => simp at h
    | cons c cs =>
      have h1 : ys.length = cs.length := by simpa using h
      have := ih cs h1
      unfold unmatched at this ⊢
      simp only [List.zip_cons_cons, List.length_cons, List.take_succ_cons, List.filter_cons]
      by_cases hc : c < 0
      · simp only [hc, decide_True, if_true, List.map_cons, List.length_cons, this]
      · simp only [hc, decide_False, Bool.false_eq_true, if_false, this]

/-- The matched codes of the output are the codes of the input that are not removed. -/
theorem Resolved.matched_perm (hr : Resolved key d input output removed) :
    (output.filter (fun c => decide (0 ≤ c))).Perm
      (input.filter (fun c => !(removed.lookup c).getD false)) := by
  have hnd_in : input.Nodup := by
    rw [hr.input_eq]
    exact List.Nodup.map (fun a b h => by simpa using h) (List.nodup_range _)
  have hmem_in : ∀ c, c ∈ input ↔ 0 ≤ c ∧ c < (d.Input.length : Int) := by
    intro c
    rw [hr.input_eq, List.mem_map]
    constructor
    · rintro ⟨p, hp, rfl⟩
      rw [List.mem_range] at hp
      simp only [Int.ofNat_eq_coe]
      omega
    · rintro ⟨h0, h1⟩
      obtain ⟨p, rfl⟩ := Int.eq_ofNat_of_zero_le h0
      exact ⟨p, List.mem_range.mpr (by omega), rfl⟩
  apply (List.perm_ext_iff_of_nodup (hr.output_nodup.filter _) (hnd_in.filter _)).mpr
  intro c
  simp only [List.mem_filter, decide_eq_true_eq, Bool.not_eq_true', hmem_in]
  constructor
  · rintro ⟨hc, h0⟩
    obtain ⟨j, hj⟩ := List.getElem?_of_mem hc
    obtain ⟨x, y, hx, -, -, hrem⟩ := hr.output_pos hj h0
    have := index_eq_some hx
    exact ⟨⟨h0, by omega⟩, hrem⟩
  · rintro ⟨⟨h0, hn⟩, hrem⟩
    refine ⟨?_, h0⟩
    by_contra hout
    have := (hr.removed_iff c).mpr ⟨h0, hn, hout⟩
    rw [hrem] at this
    cases this

theorem Resolved.removed_count (hr : Resolved key d input output removed) :
    (input.filter (fun c => (removed.lookup c).getD false)).length
      + (output.filter (fun c => decide (0 ≤ c))).length = d.Input.length := by
  rw [hr.matched_perm.length_eq]
  have h := length_filter_add (fun c => (removed.lookup c).getD false)
    (fun c => !(removed.lookup c).getD false) (fun _ => rfl) input
  rw [h, hr.input_eq, List.length_map, List.length_range]

end CountLemmas

section SurplusLemmas
variable {α κ : Type} [DecidableEq κ]

theorem occurrences_eq_length_filter (key : α → κ) (k : κ) (xs : List α) :
    occurrences key k xs = (xs.filter (fun x => decide (key x = k))).length := by
  unfold occurrences
  rw [List.countP_eq_length_filter]

/-- The items at the removed positions of a prefix of the input, restricted to one key, are
the items of that key in the prefix after the first `b`, where `b` counts the key in the
output. -/
theorem surplus_filter (key : α → κ) (inp out : List α) (remP : Int → Bool)
    (hspec : ∀ c, remP c = true ↔ ∃ (p : Nat) (x : α), c = (p : Int) ∧ inp[p]? = some x ∧
      occurrences key (key x) out ≤ occurrences key (key x) (inp.take p)) (k : κ) :
    ∀ pre rest : List α, inp = pre ++ rest →
      (itemsAt inp (((List.range pre.length).map Int.ofNat).filter remP)).filter
          (fun x => decide (key x = k))
        = (pre.filter (fun x => decide (key x = k))).drop (occurrences key k out) := by
  intro pre
  induction pre using List.reverseRecOn with
  | nil => intro rest _; simp [itemsAt]
  | append_singleton pre x ih =>
    intro rest h
    have ih1 := ih (x :: rest) (by rw [h]; simp)
    have hx : inp[pre.length]? = some x := by
      rw [h, List.append_assoc, List.getElem?_append_right (le_refl _)]
      simp
    have htake : inp.take pre.length = pre := by
      rw [h, List.append_assoc, List.take_left' rfl]
    have hrem : remP (pre.length : Int) = true ↔
        occurrences key (key x) out ≤ occurrences key (key x) pre := by
      rw [hspec]
      constructor
      · rintro ⟨p, x1, hp, hx1, hle⟩
        have hpe : p = pre.length := by omega
        subst hpe
        rw [hx] at hx1
        cases hx1
        rw [htake] at hle
        exact hle
      · intro hle
        exact ⟨pre.length, x, rfl, hx, by rw [htake]; exact hle⟩
    have hl : (pre ++ [x]).length = pre.length + 1 := by simp
    rw [hl, List.range_succ, List.map_append, List.filter_append, itemsAt_append,
      List.filter_append, ih1, List.filter_append, List.drop_append_eq_append_drop,
      ← occurrences_eq_length_filter]
    congr 1
    have hidx : index inp (Int.ofNat pre.length) = some x := by
      simp only [Int.ofNat_eq_coe, index_natCast]
      exact hx
    by_cases hk : key x = k
    · subst hk
      by_cases hle : occurrences key (key x) out ≤ occurrences key (key x) pre
      · have hr1 : remP (Int.ofNat pre.length) = true := hrem.mpr hle
        have e : occurrences key (key x) out - occurrences key (key x) pre = 0 := by omega
        simp only [List.map_cons, List.map_nil, List.filter_cons, hr1, if_true, List.filter_nil,
          itemsAt_singleton inp _ x hidx, decide_True, e, List.drop_zero]
      · have hr1 : remP (Int.ofNat pre.length) = false := by
          cases hc : remP (Int.ofNat pre.length) with
          | false => rfl
          | true => exact absurd (hrem.mp hc) hle
        obtain ⟨n, hn⟩ : ∃ n, occurrences key (key x) out - occurrences key (key x) pre
            = n + 1 := ⟨_, (Nat.succ_pred_eq_of_pos (by omega)).symm⟩
        simp only [List.map_cons, List.map_nil, List.filter_cons, hr1, Bool.false_eq_true,
          if_false, List.filter_nil, decide_True, if_true, hn, List.drop_succ_cons,
          List.drop_nil]
        rfl
    · have hkf : decide (key x = k) = false := by simp [hk]
      by_cases hc : remP (Int.ofNat pre.length) = true
      · simp only [List.map_cons, List.map_nil, List.filter_cons, hc, if_true, List.filter_nil,
          itemsAt_singleton inp _ x hidx, hkf, Bool.false_eq_true, if_false, List.drop_nil]
      · have hc1 : remP (Int.ofNat pre.length) = false := by
          cases h1 : remP (Int.ofNat pre.length) with
          | false => rfl
          | true => exact absurd h1 hc
        simp only [List.map_cons, List.map_nil, List.filter_cons, hc1, Bool.false_eq_true,
          if_false, List.filter_nil, hkf, List.drop_nil]
        rfl

end SurplusLemmas

section StepCases
variable {α κ : Type} [DecidableEq κ] {key : α → κ} {d : differ α} {input output : List Int}
  {removed : GoMap Int Bool}

/-- The four branches of one loop iteration, from a state that satisfies the invariant and
the loop guard, with the operation emitted and the next state of each. -/
theorem step_cases (hr : Resolved key d input output removed) (s : LoopState)
    (hinv : Inv d output removed s) (hi : 0 < s.i) (ho : 0 < s.o) :
    ∃ a b : Int, s.input[s.i - 1]? = some a ∧ output[s.o - 1]? = some b ∧
      s.input.take s.i = s.input.take (s.i - 1) ++ [a] ∧
      ((a = b ∧ ∃ x y, index d.Input a = some x ∧ d.Output[s.o - 1]? = some y ∧
          key x = key y ∧
          step d output removed s
            = some ([], { input := s.input, i := s.i - 1, o := s.o - 1 })) ∨
       (a ≠ b ∧ (removed.lookup a).getD false = true ∧ ∃ x, index d.Input a = some x ∧
          step d output removed s
            = some ([Op.splice ((s.i : Int) - 1) [x] []],
                { input := s.input, i := s.i - 1, o := s.o })) ∨
       (a ≠ b ∧ (removed.lookup a).getD false = false ∧ b = -(s.o : Int) ∧
          ∃ y, d.Output[s.o - 1]? = some y ∧
          step d output removed s
            = some ([Op.splice (s.i : Int) [] [y]],
                { input := s.input, i := s.i, o := s.o - 1 })) ∨
       (a ≠ b ∧ (removed.lookup a).getD false = false ∧ 0 ≤ b ∧
          a ∈ output.take (s.o - 1) ∧
          ∃ (A B : List Int) (x y : α), s.input.take s.i = A ++ b :: (B ++ [a]) ∧
            b ∉ A ∧ b ∉ B ++ [a] ∧
            search s.input b s.i 0 = some (A.length : Int) ∧
            index d.Input b = some x ∧ d.Output[s.o - 1]? = some y ∧ key x = key y ∧
            step d output removed s
              = some ([Op.move (A.length : Int) 1 ((B.length : Int) + 1)],
                  { input := A ++ (B ++ [a]), i := s.i - 1, o := s.o - 1 }))) := by
  obtain ⟨inp, i, o⟩ := s
  simp only at hi ho ⊢
  obtain ⟨i, rfl⟩ : ∃ n, i = n + 1 := ⟨i - 1, by omega⟩
  obtain ⟨o, rfl⟩ : ∃ n, o = n + 1 := ⟨o - 1, by omega⟩
  obtain ⟨h1, h2, h3, h4, h5⟩ := hinv
  simp only at h1 h2 h3 h4 h5
  simp only [Nat.add_sub_cancel]
  have hia : inp[i]? = some inp[i] := List.getElem?_eq_getElem (by omega)
  have hob : output[o]? = some output[o] := List.getElem?_eq_getElem (by omega)
  generalize inp[i] = a at hia
  generalize output[o] = b at hob
  have hL := take_succ_of_getElem? hia
  have hO := take_succ_of_getElem? hob
  rw [hL] at h3 h4 h5
  rw [hO] at h4 h5
  have haL : a ∉ inp.take i := fun h =>
    List.disjoint_of_nodup_append h3 h (by simp)
  have hlenL : (inp.take i).length = i := by
    rw [List.length_take]; omega
  obtain ⟨ha0, han, harem⟩ := h4 a (by simp)
  refine ⟨a, b, hia, hob, hL, ?_⟩
  simp only [step, Nat.add_sub_cancel, hia, hob]
  by_cases hab : a = b
  · left
    subst hab
    obtain ⟨x, y, hx, hy, hk, -⟩ := hr.output_pos hob ha0
    exact ⟨rfl, x, y, hx, hy, hk, by rw [if_pos rfl]⟩
  · right
    rw [if_neg hab]
    by_cases hrem : (GoMap.lookup removed a).getD false = true
    · left
      obtain ⟨x, hx⟩ := index_of_bounds d.Input a ha0 han
      refine ⟨hab, hrem, x, hx, ?_⟩
      rw [if_pos hrem]
      simp only [hx]
    · right
      rw [if_neg hrem]
      have hrem1 : (GoMap.lookup removed a).getD false = false := by
        cases h : (GoMap.lookup removed a).getD false with
        | false => rfl
        | true => exact absurd h hrem
      by_cases hb : b < 0
      · left
        have hbv := hr.output_neg hob hb
        have hoLen : o < d.Output.length := by
          rw [← hr.output_len]; omega
        have e1 : (-1 - b) = (o : Int) := by omega
        have hy : d.Output[o]? = some d.Output[o] := List.getElem?_eq_getElem hoLen
        refine ⟨hab, hrem1, by rw [hbv]; push_cast; ring, d.Output[o], hy, ?_⟩
        rw [if_pos hb]
        simp only [e1, index_natCast, hy]
      · right
        rw [if_neg hb]
        have hb0 : 0 ≤ b := by omega
        have hbL : b ∈ inp.take i := by
          rcases List.mem_append.mp (h5 b (by simp) hb0) with h | h
          · exact h
          · simp only [List.mem_singleton] at h
            exact absurd h.symm hab
        have haO : a ∈ output.take o := by
          rcases harem with h | h
          · rw [hrem1] at h; cases h
          · rcases List.mem_append.mp h with h | h
            · exact h
            · simp only [List.mem_singleton] at h
              exact absurd h hab
        obtain ⟨A, B, hAB⟩ := List.append_of_mem hbL
        have hndL : (A ++ b :: B).Nodup := by
          rw [← hAB]; exact (List.nodup_append.mp h3).1
        have hbA : b ∉ A := fun h =>
          List.disjoint_of_nodup_append hndL h (by simp)
        have hbB : b ∉ B := (List.nodup_cons.mp (List.nodup_append.mp hndL).2.1).1
        have hfull : inp.take (i + 1) = A ++ b :: (B ++ [a]) := by
          rw [hL, hAB]; simp
        have hlenAB : A.length + 1 + B.length = i := by
          have := congrArg List.length hAB
          rw [hlenL] at this
          simp at this
          omega
        have hsearch : search inp b (i + 1) 0 = some ((A.length : Nat) : Int) := by
          have := search_spec inp b A (i + 1) 0 (B ++ [a]) (by simpa using hfull) hbA
          simpa using this
        have hnew : inp.take A.length ++ (inp.take (i + 1)).drop (A.length + 1)
            = A ++ (B ++ [a]) := by
          have t1 : inp.take A.length = A := by
            have : inp.take A.length = (inp.take (i + 1)).take A.length := by
              rw [List.take_take, Nat.min_eq_left (by omega)]
            rw [this, hfull, List.take_left' rfl]
          rw [t1, hfull]
          congr 1
          have : A ++ b :: (B ++ [a]) = (A ++ [b]) ++ (B ++ [a]) := by simp
          rw [this, List.drop_left' (by simp)]
        have hneg : ¬ ((A.length : Int) < 0) := by omega
        have hbnot : b ∉ B ++ [a] := by
          simp only [List.mem_append, List.mem_singleton, not_or]
          exact ⟨hbB, fun h => hab h.symm⟩
        obtain ⟨x, y, hx, hy, hk, -⟩ := hr.output_pos hob hb0
        have e : ((i + 1 : Nat) : Int) - 1 - (A.length : Int) = (B.length : Int) + 1 := by
          omega
        refine ⟨hab, hrem1, hb0, haO, A, B, x, y, hfull, hbA, hbnot, hsearch, hx, hy, hk, ?_⟩
        simp only [hsearch, hneg, if_false, Int.toNat_ofNat, hnew, e]

/-- Every state the loop visits from the state in which `diff` enters it satisfies the
invariant. -/
theorem Reaches.inv (hr : Resolved key d input output removed) {s0 s : LoopState}
    {acc : List (Op α)} (h0 : Inv d output removed s0)
    (h : Reaches d output removed s0 acc s) : Inv d output removed s := by
  induction h with
  | start => exact h0
  | next acc ops s s1 _ hi ho hstep ih =>
    obtain ⟨ops1, s2, hstep2, hinv2, -, -⟩ := step_spec hr s ih hi ho
    rw [hstep] at hstep2
    cases hstep2
    exact hinv2

/-- The visited states are the states of the loop of `diff`: the operations emitted on the
way to a state, followed by what the loop returns from it, are what it returns from the
start. -/
theorem Reaches.run_eq {s0 s : LoopState} {acc : List (Op α)}
    (h : Reaches d output removed s0 acc s) :
    ∀ (fuel : Nat) (rest : List (Op α)), run d output removed fuel s = some rest →
      ∃ fuel0, run d output removed fuel0 s0 = some (acc ++ rest) := by
  induction h with
  | start => intro fuel rest hrun; exact ⟨fuel, hrun⟩
  | next acc ops s s1 _ hi ho hstep ih =>
    intro fuel rest hrun
    obtain ⟨fuel0, h0⟩ := ih (fuel + 1) (ops ++ rest) (by
      simp only [run, hi, ho, and_self, if_true, hstep, hrun, Option.map_some'])
    exact ⟨fuel0, by rw [List.append_assoc]; exact h0⟩

end StepCases

section ApplicableLemmas
variable {α κ : Type} {key : α → κ} {d : differ α} {output : List Int}
  {removed : GoMap Int Bool}

theorem applicable_splice_insert (L S : List α) (ys : List α) (n : Nat) (hn : n = L.length) :
    Applicable (Op.splice (n : Int) [] ys) (L ++ S) := by
  subst hn
  refine ⟨by omega, ?_, by simp⟩
  simp only [List.length_nil, List.length_append]
  omega

theorem applicable_splice_delete (L S : List α) (xs : List α) (n : Nat) (hn : n = L.length) :
    Applicable (Op.splice (n : Int) xs []) (L ++ (xs ++ S)) := by
  subst hn
  refine ⟨by omega, ?_, ?_⟩
  · simp only [List.length_append]
    omega
  · simp only [Int.toNat_ofNat]
    rw [List.drop_left' rfl, List.take_left' rfl]

theorem applicable_move_one (A B S : List α) (x : α) (n m : Nat) (hn : n = A.length)
    (hm : m = B.length) :
    Applicable (Op.move (n : Int) 1 (m : Int)) (A ++ x :: (B ++ S)) := by
  subst hn hm
  refine ⟨by omega, ?_⟩
  simp only [List.length_append, List.length_cons]
  omega

/-- Every operation of a trace can be applied to the version produced by the operations
before it, starting from the unprocessed input items followed by any suffix. -/
theorem Trace.applicable {L : List Int} {o : Nat} {ops : List (Op α)}
    (h : Trace key d output removed L o ops) :
    ∀ S : List α, AllApplicable ops (itemsAt d.Input L ++ S) := by
  induction h with
  | done => intro S; exact trivial
  | insertAll o _ _ _ =>
    intro S
    have h1 := applicable_splice_insert ([] : List α) S (d.Output.take o) 0 rfl
    have h2 := applyOp_splice_insert ([] : List α) S (d.Output.take o) 0 rfl
    simp only [List.nil_append, Nat.cast_zero] at h1 h2
    simp only [itemsAt, List.filterMap_nil, List.nil_append]
    exact ⟨h1, _, h2, trivial⟩
  | deleteAll L _ hall =>
    intro S
    have h1 := applicable_splice_delete ([] : List α) S (itemsAt d.Input L) 0 rfl
    have h2 := applyOp_splice_delete ([] : List α) S (itemsAt d.Input L) 0 rfl
    simp only [List.nil_append, Nat.cast_zero] at h1 h2
    exact ⟨h1, _, h2, trivial⟩
  | same L a o x y ops _ hx _ _ _ _ ih =>
    intro S
    have := ih (x :: S)
    rw [itemsAt_append, itemsAt_singleton _ a x hx]
    simpa using this
  | delete L a b o x ops _ _ _ hx htr ih =>
    intro S
    rw [itemsAt_append, itemsAt_singleton _ a x hx]
    have hlen := itemsAt_length d.Input L htr.valid
    have h1 := applicable_splice_delete (itemsAt d.Input L) S [x] L.length hlen.symm
    have h2 := applyOp_splice_delete (itemsAt d.Input L) S [x] L.length hlen.symm
    rw [List.append_assoc]
    exact ⟨h1, _, h2, ih S⟩
  | insert L a b o y ops _ _ _ _ _ htr ih =>
    intro S
    have hlen := itemsAt_length d.Input (L ++ [a]) htr.valid
    have hn : L.length + 1 = (itemsAt d.Input (L ++ [a])).length := by rw [hlen]; simp
    have h1 := applicable_splice_insert (itemsAt d.Input (L ++ [a])) S [y] (L.length + 1) hn
    have h2 := applyOp_splice_insert (itemsAt d.Input (L ++ [a])) S [y] (L.length + 1) hn
    simp only [Nat.cast_add, Nat.cast_one] at h1 h2
    refine ⟨h1, _, h2, ?_⟩
    simpa using ih (y :: S)
  | move A B a b o x y ops _ _ _ _ _ hx _ _ htr ih =>
    intro S
    have hvalid := htr.valid
    have hlenA := itemsAt_length d.Input A (fun c hc => hvalid c (by simp [hc]))
    have hlenB := itemsAt_length d.Input (B ++ [a])
      (fun c hc => hvalid c (List.mem_append_right _ hc))
    have hm : B.length + 1 = (itemsAt d.Input (B ++ [a])).length := by rw [hlenB]; simp
    have h1 := applicable_move_one (itemsAt d.Input A) (itemsAt d.Input (B ++ [a])) S x
      A.length (B.length + 1) hlenA.symm hm
    have h2 := applyOp_move_one (itemsAt d.Input A) (itemsAt d.Input (B ++ [a])) S x
      A.length (B.length + 1) hlenA.symm hm
    simp only [Nat.cast_add, Nat.cast_one] at h1 h2
    have e : itemsAt d.Input (A ++ b :: (B ++ [a])) ++ S
        = itemsAt d.Input A ++ x :: (itemsAt d.Input (B ++ [a]) ++ S) := by
      rw [itemsAt_append, itemsAt_cons _ b _ x hx]
      simp
    rw [e]
    refine ⟨h1, _, h2, ?_⟩
    have := ih (x :: S)
    rw [itemsAt_append, List.append_assoc] at this
    exact this

end ApplicableLemmas

section CongrLemmas
variable {α : Type}

/-- One loop iteration reads the removed set only through membership. -/
theorem step_congr (d : differ α) (output : List Int) (r1 r2 : GoMap Int Bool)
    (h : ∀ c, (r1.lookup c).getD false = (r2.lookup c).getD false) (s : LoopState) :
    step d output r1 s = step d output r2 s := by
  simp only [step, h]

theorem run_congr (d : differ α) (output : List Int) (r1 r2 : GoMap Int Bool)
    (h : ∀ c, (r1.lookup c).getD false = (r2.lookup c).getD false) :
    ∀ (fuel : Nat) (s : LoopState), run d output r1 fuel s = run d output r2 fuel s := by
  intro fuel
  induction fuel with
  | zero => intro s; rfl
  | succ fuel ih =>
    intro s
    simp only [run, step_congr d output r1 r2 h, ih]

theorem buildRemoved_perm (vs ws : List Int) (h : vs.Perm ws) (c : Int) :
    ((buildRemoved vs).lookup c).getD false = ((buildRemoved ws).lookup c).getD false := by
  have h1 := buildRemoved_spec vs c
  have h2 := buildRemoved_spec ws c
  have hm : c ∈ vs ↔ c ∈ ws := h.mem_iff
  cases hv : ((buildRemoved vs).lookup c).getD false with
  | true =>
    exact ((h2.mpr (hm.mp (h1.mp hv)))).symm
  | false =>
    cases hw : ((buildRemoved ws).lookup c).getD false with
    | false => rfl
    | true =>
      have := h1.mpr (hm.mpr (h2.mp hw))
      rw [hv] at this
      cases this

end CongrLemmas

section BridgeLemmas
variable {α : Type} {d : differ α} {output : List Int} {removed : GoMap Int Bool}

/-- A loop iteration followed by visited states is a sequence of visited states. -/
theorem Reaches.cons {s s1 s2 : LoopState} {ops acc : List (Op α)}
    (hi : 0 < s.i) (ho : 0 < s.o) (hstep : step d output removed s = some (ops, s1))
    (h : Reaches d output removed s1 acc s2) :
    Reaches d output removed s (ops ++ acc) s2 := by
  induction h with
  | start =>
    have := Reaches.next [] ops s s1 Reaches.start hi ho hstep
    simpa using this
  | next acc2 ops2 s3 s4 _ hi3 ho3 hstep3 ih =>
    have := Reaches.next (ops ++ acc2) ops2 s3 s4 ih hi3 ho3 hstep3
    rw [List.append_assoc] at this
    exact this

theorem Reaches.trans {s0 s1 s2 : LoopState} {acc1 acc2 : List (Op α)}
    (h1 : Reaches d output removed s0 acc1 s1) (h2 : Reaches d output removed s1 acc2 s2) :
    Reaches d output removed s0 (acc1 ++ acc2) s2 := by
  induction h2 with
  | start => simpa using h1
  | next acc ops s s3 _ hi ho hstep ih =>
    have := Reaches.next (acc1 ++ acc) ops s s3 ih hi ho hstep
    rw [List.append_assoc] at this
    exact this

/-- What the loop returns does not depend on the budget. -/
theorem run_fuel_unique (d : differ α) (output : List Int) (removed : GoMap Int Bool) :
    ∀ (f1 f2 : Nat) (s : LoopState) (a b : List (Op α)),
      run d output removed f1 s = some a → run d output removed f2 s = some b → a = b := by
  intro f1
  induction f1 with
  | zero => intro f2 s a b h1 _; simp [run] at h1
  | succ f1 ih =>
    intro f2 s a b h1 h2
    cases f2 with
    | zero => simp [run] at h2
    | succ f2 =>
      simp only [run] at h1 h2
      by_cases hg : 0 < s.i ∧ 0 < s.o
      · rw [if_pos hg] at h1 h2
        cases hstep : step d output removed s with
        | none => rw [hstep] at h1; simp at h1
        | some p =>
          obtain ⟨ops, s1⟩ := p
          rw [hstep] at h1 h2
          simp only at h1 h2
          cases hr1 : run d output removed f1 s1 with
          | none => rw [hr1] at h1; simp at h1
          | some r1 =>
            cases hr2 : run d output removed f2 s1 with
            | none => rw [hr2] at h2; simp at h2
            | some r2 =>
              rw [hr1] at h1
              rw [hr2] at h2
              simp only [Option.map_some', Option.some.injEq] at h1 h2
              rw [← h1, ← h2, ih f2 s1 r1 r2 hr1 hr2]
      · rw [if_neg hg] at h1 h2
        rw [h1] at h2
        exact Option.some.inj h2

/-- What the loop returns is made of the operations of the iterations it runs through and of
the code after the loop at the state where the guard fails. -/
theorem run_decompose (d : differ α) (output : List Int) (removed : GoMap Int Bool) :
    ∀ (fuel : Nat) (s : LoopState) (ops : List (Op α)),
      run d output removed fuel s = some ops →
      ∃ (acc fin : List (Op α)) (s2 : LoopState), Reaches d output removed s acc s2 ∧
        ¬ (0 < s2.i ∧ 0 < s2.o) ∧ finish d output s2 = some fin ∧ ops = acc ++ fin := by
  intro fuel
  induction fuel with
  | zero => intro s ops h; simp [run] at h
  | succ fuel ih =>
    intro s ops h
    simp only [run] at h
    by_cases hg : 0 < s.i ∧ 0 < s.o
    · rw [if_pos hg] at h
      cases hstep : step d output removed s with
      | none => rw [hstep] at h; simp at h
      | some p =>
        obtain ⟨ops1, s1⟩ := p
        rw [hstep] at h
        simp only at h
        cases hr1 : run d output removed fuel s1 with
        | none => rw [hr1] at h; simp at h
        | some r1 =>
          rw [hr1] at h
          simp only [Option.map_some', Option.some.injEq] at h
          obtain ⟨acc, fin, s2, hreach, hexit, hfin, heq⟩ := ih s1 r1 hr1
          refine ⟨ops1 ++ acc, fin, s2, Reaches.cons hg.1 hg.2 hstep hreach, hexit, hfin, ?_⟩
          rw [← h, heq, List.append_assoc]
    · rw [if_neg hg] at h
      exact ⟨[], ops, s, Reaches.start, hg, h, rfl⟩

/-- Every operation the loop returns is emitted by an iteration at a visited state or by the
code after the loop. -/
theorem mem_of_reaches_append {s0 s : LoopState} {acc : List (Op α)}
    (h : Reaches d output removed s0 acc s) (op : Op α) (hop : op ∈ acc) :
    ∃ (acc1 ops1 : List (Op α)) (s1 s2 : LoopState), Reaches d output removed s0 acc1 s1 ∧
      0 < s1.i ∧ 0 < s1.o ∧ step d output removed s1 = some (ops1, s2) ∧ op ∈ ops1 := by
  induction h with
  | start => simp at hop
  | next acc ops s s1 hprev hi ho hstep ih =>
    rcases List.mem_append.mp hop with h | h
    · exact ih h
    · exact ⟨acc, ops, s, s1, hprev, hi, ho, hstep, h⟩

end BridgeLemmas

section EntryLemmas
variable {α κ : Type} [DecidableEq κ]

/-- Every state the loop of `diff` visits on the data of `Diff` satisfies the invariant. -/
theorem Reaches.inv_coded (key : α → κ) (d : differ α) {acc : List (Op α)} {s : LoopState}
    (h : Reaches d (outputCoded key d) (removedSet key d)
      (initial (inputCoded key d) (outputCoded key d)) acc s) :
    Inv d (outputCoded key d) (removedSet key d) s :=
  Reaches.inv (resolved_coded key d) (inv_init (resolved_coded key d)) h

/-- What `Diff` returns is made of the operations of the loop iterations up to the state
where the guard fails and of the code after the loop at that state. -/
theorem Diff_decompose (key : α → κ) (d : differ α) :
    ∃ (ops acc fin : List (Op α)) (s : LoopState), Diff key d = some ops ∧
      Reaches d (outputCoded key d) (removedSet key d)
        (initial (inputCoded key d) (outputCoded key d)) acc s ∧
      ¬ (0 < s.i ∧ 0 < s.o) ∧ finish d (outputCoded key d) s = some fin ∧
      ops = acc ++ fin := by
  obtain ⟨ops, hops, -⟩ := diff_trace (resolved_coded key d)
  obtain ⟨acc, fin, s, hreach, hexit, hfin, heq⟩ := run_decompose d _ _ _ _ ops hops
  exact ⟨ops, acc, fin, s, hops, hreach, hexit, hfin, heq⟩

/-- At a visited state where the guard fails, `Diff` returns the operations emitted so far
followed by those of the code after the loop. -/
theorem Reaches.diff_eq (key : α → κ) (d : differ α) {acc fin : List (Op α)} {s : LoopState}
    (h : Reaches d (outputCoded key d) (removedSet key d)
      (initial (inputCoded key d) (outputCoded key d)) acc s)
    (hexit : ¬ (0 < s.i ∧ 0 < s.o)) (hfin : finish d (outputCoded key d) s = some fin) :
    Diff key d = some (acc ++ fin) := by
  obtain ⟨ops, hops, -⟩ := diff_trace (resolved_coded key d)
  have hrun : run d (outputCoded key d) (removedSet key d) 1 s = some fin := by
    simp only [run, hexit, if_false, hfin]
  obtain ⟨fuel0, h0⟩ := h.run_eq 1 fin hrun
  have := run_fuel_unique d _ _ _ _ _ _ _ hops h0
  rw [← this]
  exact hops

end EntryLemmas

section FinishLemmas
variable {α κ : Type} [DecidableEq κ]

/-- The code after the loop emits splices only. -/
theorem finish_splices (d : differ α) (output : List Int) (s : LoopState)
    (fin : List (Op α)) (h : finish d output s = some fin) :
    ∀ (offset count distance : Int), Op.move offset count distance ∉ fin := by
  intro offset count distance hmem
  unfold finish at h
  simp only at h
  by_cases ho : 0 < s.o
  · by_cases hi : 0 < s.i
    · rw [if_pos ho, if_pos hi] at h
      cases h1 : leftover d.Output output (fun c => -1 - c) s.o 0 with
      | none => rw [h1] at h; simp at h
      | some l1 =>
        cases h2 : leftover d.Input s.input (fun c => c) s.i 0 with
        | none => rw [h1, h2] at h; simp at h
        | some l2 =>
          rw [h1, h2] at h
          simp only [Option.map_some', Option.some.injEq] at h
          rw [← h] at hmem
          simp at hmem
    · rw [if_pos ho, if_neg hi] at h
      cases h1 : leftover d.Output output (fun c => -1 - c) s.o 0 with
      | none => rw [h1] at h; simp at h
      | some l1 =>
        rw [h1] at h
        simp only [Option.map_some', Option.some.injEq] at h
        rw [← h] at hmem
        simp at hmem
  · by_cases hi : 0 < s.i
    · rw [if_neg ho, if_pos hi] at h
      cases h2 : leftover d.Input s.input (fun c => c) s.i 0 with
      | none => rw [h2] at h; simp at h
      | some l2 =>
        rw [h2] at h
        simp only [Option.map_some', Option.some.injEq] at h
        rw [← h] at hmem
        simp at hmem
    · rw [if_neg ho, if_neg hi] at h
      simp only [Option.some.injEq] at h
      rw [← h] at hmem
      simp at hmem

/-- The code after the loop at a visited state where the guard fails with outputs left. -/
theorem finish_outputs (key : α → κ) (d : differ α) {acc : List (Op α)} {s : LoopState}
    (hreach : Reaches d (outputCoded key d) (removedSet key d)
      (initial (inputCoded key d) (outputCoded key d)) acc s)
    (hexit : ¬ (0 < s.i ∧ 0 < s.o)) (ho : 0 < s.o) :
    s.i = 0 ∧ finish d (outputCoded key d) s = some [Op.splice 0 [] (d.Output.take s.o)] := by
  have hinv := hreach.inv_coded key d
  have hi0 : s.i = 0 := by omega
  obtain ⟨ops, hfin, htr⟩ := finish_spec (resolved_coded key d) s hinv hexit
  refine ⟨hi0, ?_⟩
  rcases htr.of_nil (by rw [hi0]; rfl) with ⟨h0, -⟩ | ⟨-, hops⟩
  · omega
  · rw [hfin, hops]

/-- The code after the loop at a visited state where the guard fails with inputs left. -/
theorem finish_inputs (key : α → κ) (d : differ α) {acc : List (Op α)} {s : LoopState}
    (hreach : Reaches d (outputCoded key d) (removedSet key d)
      (initial (inputCoded key d) (outputCoded key d)) acc s)
    (hexit : ¬ (0 < s.i ∧ 0 < s.o)) (hi : 0 < s.i) :
    s.o = 0 ∧ finish d (outputCoded key d) s
      = some [Op.splice 0 (itemsAt d.Input (s.input.take s.i)) []] := by
  have hinv := hreach.inv_coded key d
  have ho0 : s.o = 0 := by omega
  obtain ⟨ops, hfin, htr⟩ := finish_spec (resolved_coded key d) s hinv hexit
  refine ⟨ho0, ?_⟩
  rcases htr.of_zero ho0 with ⟨hL, -⟩ | ⟨-, hops⟩
  · exfalso
    have := congrArg List.length hL
    rw [List.length_take, List.length_nil] at this
    have := hinv.i_le
    omega
  · rw [hfin, hops]

end FinishLemmas

section EffectStep
variable {α κ : Type} [DecidableEq κ] {key : α → κ} {d : differ α} {input output : List Int}
  {removed : GoMap Int Bool}

theorem applyOps_append (ops1 ops2 : List (Op α)) (xs ys : List α)
    (h : applyOps ops1 xs = some ys) : applyOps (ops1 ++ ops2) xs = applyOps ops2 ys := by
  induction ops1 generalizing xs with
  | nil =>
    simp only [applyOps, Option.some.injEq] at h
    subst h
    rfl
  | cons op rest ih =>
    simp only [List.cons_append, applyOps] at h ⊢
    cases hop : applyOp op xs with
    | none => rw [hop] at h; simp at h
    | some zs =>
      rw [hop] at h
      simp only at h ⊢
      exact ih zs h

theorem drop_of_getElem? {β : Type} {xs : List β} {n : Nat} {y : β} (h : xs[n]? = some y) :
    xs.drop n = y :: xs.drop (n + 1) := by
  obtain ⟨hn, hy⟩ := List.getElem?_eq_some_iff.mp h
  rw [← hy]
  exact List.drop_eq_getElem_cons hn

theorem Inv.codes_valid {s : LoopState} (hinv : Inv d output removed s) :
    ∀ c ∈ s.input.take s.i, (index d.Input c).isSome = true := by
  intro c hc
  obtain ⟨h0, hn, -⟩ := hinv.input_mem c hc
  obtain ⟨x, hx⟩ := index_of_bounds d.Input c h0 hn
  rw [hx]; rfl

theorem Inv.prefix_length {s : LoopState} (hinv : Inv d output removed s) :
    (itemsAt d.Input (s.input.take s.i)).length = s.i := by
  rw [itemsAt_length _ _ hinv.codes_valid, List.length_take]
  have := hinv.i_le
  omega

/-- The effect of one loop iteration on the current version: the unprocessed items followed
by any suffix `S` become the unprocessed items of the next state followed by at most one new
item `mid` and `S`, and `mid` agrees by key with the output positions consumed. -/
theorem step_effect (hr : Resolved key d input output removed) (s s1 : LoopState)
    (ops1 : List (Op α)) (hinv : Inv d output removed s) (hi : 0 < s.i) (ho : 0 < s.o)
    (hstep : step d output removed s = some (ops1, s1)) :
    ∃ mid : List α,
      (∀ S : List α, applyOps ops1 (itemsAt d.Input (s.input.take s.i) ++ S)
        = some (itemsAt d.Input (s1.input.take s1.i) ++ (mid ++ S))) ∧
      mid.map key ++ (d.Output.drop s.o).map key = (d.Output.drop s1.o).map key ∧
      mid.length + s1.o = s.o := by
  obtain ⟨a, b, ha, hb, hL, hcase⟩ := step_cases hr s hinv hi ho
  have hvalid := hinv.codes_valid
  have hvalid1 : ∀ c ∈ s.input.take (s.i - 1), (index d.Input c).isSome = true := by
    intro c hc
    exact hvalid c (by rw [hL]; exact List.mem_append_left _ hc)
  have hso : s.o - 1 + 1 = s.o := by omega
  rcases hcase with ⟨-, x, y, hx, hy, hk, h⟩ | ⟨-, -, x, hx, h⟩ | ⟨-, -, -, y, hy, h⟩ |
      ⟨-, -, -, -, A, B, x, y, hfull, -, -, -, hx, hy, hk, h⟩
  · rw [hstep] at h
    cases h
    refine ⟨[x], ?_, ?_, ?_⟩
    · intro S
      simp only [applyOps]
      rw [hL, itemsAt_append, itemsAt_singleton _ a x hx]
      simp
    · simp only
      rw [drop_of_getElem? hy, hso]
      simp [hk]
    · simp only [List.length_singleton]
      omega
  · rw [hstep] at h
    cases h
    refine ⟨[], ?_, ?_, ?_⟩
    · intro S
      simp only
      rw [hL, itemsAt_append, itemsAt_singleton _ a x hx]
      have hlen : (s.i - 1 : Nat) = (itemsAt d.Input (s.input.take (s.i - 1))).length := by
        rw [itemsAt_length _ _ hvalid1, List.length_take]
        have := hinv.i_le
        omega
      have e : (s.i : Int) - 1 = ((s.i - 1 : Nat) : Int) := by omega
      have := applyOp_splice_delete (itemsAt d.Input (s.input.take (s.i - 1))) S [x]
        (s.i - 1) hlen
      rw [e]
      simp only [applyOps, List.append_assoc, this, List.nil_append]
    · simp
    · simp
  · rw [hstep] at h
    cases h
    refine ⟨[y], ?_, ?_, ?_⟩
    · intro S
      simp only
      have := applyOp_splice_insert (itemsAt d.Input (s.input.take s.i)) S [y] s.i
        hinv.prefix_length.symm
      simp only [applyOps, this]
    · simp only
      rw [drop_of_getElem? hy, hso]
      simp
    · simp only [List.length_singleton]
      omega
  · rw [hstep] at h
    cases h
    have hlen : (s.input.take s.i).length = s.i := by
      rw [List.length_take]
      have := hinv.i_le
      omega
    have hlenAB : A.length + 1 + (B.length + 1) = s.i := by
      rw [hfull] at hlen
      simp only [List.length_append, List.length_cons, List.length_singleton,
        List.length_nil] at hlen
      omega
    have htake : (A ++ (B ++ [a])).take (s.i - 1) = A ++ (B ++ [a]) := by
      apply List.take_of_length_le
      simp only [List.length_append, List.length_singleton]
      omega
    refine ⟨[x], ?_, ?_, ?_⟩
    · intro S
      simp only
      rw [htake, hfull]
      have hvA : ∀ c ∈ A, (index d.Input c).isSome = true :=
        fun c hc => hvalid c (by rw [hfull]; exact List.mem_append_left _ hc)
      have hvB : ∀ c ∈ B ++ [a], (index d.Input c).isSome = true :=
        fun c hc => hvalid c (by
          rw [hfull]
          exact List.mem_append_right _ (List.mem_cons_of_mem _ hc))
      have hlenA := itemsAt_length d.Input A hvA
      have hlenB := itemsAt_length d.Input (B ++ [a]) hvB
      have hm : B.length + 1 = (itemsAt d.Input (B ++ [a])).length := by rw [hlenB]; simp
      have := applyOp_move_one (itemsAt d.Input A) (itemsAt d.Input (B ++ [a])) S x
        A.length (B.length + 1) hlenA.symm hm
      simp only [Nat.cast_add, Nat.cast_one] at this
      have e : itemsAt d.Input (A ++ b :: (B ++ [a])) ++ S
          = itemsAt d.Input A ++ x :: (itemsAt d.Input (B ++ [a]) ++ S) := by
        rw [itemsAt_append, itemsAt_cons _ b _ x hx]
        simp
      rw [e]
      simp only [applyOps, this]
      simp [itemsAt_append]
    · simp only
      rw [drop_of_getElem? hy, hso]
      simp [hk]
    · simp only [List.length_singleton]
      omega

/-- The effect of the loop iterations between two visited states on the current version. -/
theorem Reaches.effect (hr : Resolved key d input output removed) {s0 s : LoopState}
    {acc : List (Op α)} (h0 : Inv d output removed s0)
    (h : Reaches d output removed s0 acc s) :
    ∃ mid : List α,
      (∀ S : List α, applyOps acc (itemsAt d.Input (s0.input.take s0.i) ++ S)
        = some (itemsAt d.Input (s.input.take s.i) ++ (mid ++ S))) ∧
      mid.map key ++ (d.Output.drop s0.o).map key = (d.Output.drop s.o).map key ∧
      mid.length + s.o = s0.o := by
  induction h with
  | start => exact ⟨[], fun S => rfl, by simp, by simp⟩
  | next acc ops s s1 hprev hi ho hstep ih =>
    obtain ⟨mid, hmid, hkey, hlen⟩ := ih
    have hinv := Reaches.inv hr h0 hprev
    obtain ⟨m1, hm1, hkey1, hlen1⟩ := step_effect hr s s1 ops hinv hi ho hstep
    refine ⟨m1 ++ mid, ?_, ?_, ?_⟩
    · intro S
      rw [applyOps_append _ _ _ _ (hmid S), hm1 (mid ++ S), List.append_assoc]
    · rw [List.map_append, List.append_assoc, hkey, hkey1]
    · simp only [List.length_append]
      omega

end EffectStep

section BoundLemmas
variable {α κ : Type} {key : α → κ} {d : differ α} {output : List Int}
  {removed : GoMap Int Bool}

/-- A trace holds at most one operation per unprocessed input and output position. -/
theorem Trace.length_le {L : List Int} {o : Nat} {ops : List (Op α)}
    (h : Trace key d output removed L o ops) : ops.length ≤ L.length + o := by
  induction h with
  | done => simp
  | insertAll o h0 _ _ => simp only [List.length_singleton, List.length_nil]; omega
  | deleteAll L hne _ =>
    have : 0 < L.length := List.length_pos.mpr hne
    simp only [List.length_singleton]
    omega
  | same L a o x y ops _ _ _ _ _ _ ih =>
    simp only [List.length_append, List.length_singleton]
    omega
  | delete L a b o x ops _ _ _ _ _ ih =>
    simp only [List.length_append, List.length_singleton, List.length_cons]
    omega
  | insert L a b o y ops _ _ _ _ _ _ ih =>
    simp only [List.length_append, List.length_singleton, List.length_cons] at ih ⊢
    omega
  | move A B a b o x y ops _ _ _ _ _ _ _ _ _ ih =>
    simp only [List.length_append, List.length_singleton, List.length_cons] at ih ⊢
    omega

/-- Every loop iteration lowers `i + o`. -/
theorem step_decreases (d : differ α) (output : List Int) (removed : GoMap Int Bool)
    (s s1 : LoopState) (ops1 : List (Op α)) (hi : 0 < s.i) (ho : 0 < s.o)
    (h : step d output removed s = some (ops1, s1)) : s1.i + s1.o < s.i + s.o := by
  unfold step at h
  cases h1 : s.input[s.i - 1]? with
  | none => rw [h1] at h; simp at h
  | some a =>
    cases h2 : output[s.o - 1]? with
    | none => rw [h1, h2] at h; simp at h
    | some b =>
      rw [h1, h2] at h
      simp only at h
      by_cases hab : a = b
      · rw [if_pos hab] at h
        simp only [Option.some.injEq, Prod.mk.injEq] at h
        rw [← h.2]
        simp only
        omega
      · rw [if_neg hab] at h
        by_cases hrem : (GoMap.lookup removed a).getD false = true
        · rw [if_pos hrem] at h
          cases h3 : index d.Input a with
          | none => rw [h3] at h; simp at h
          | some x =>
            rw [h3] at h
            simp only [Option.some.injEq, Prod.mk.injEq] at h
            rw [← h.2]
            simp only
            omega
        · rw [if_neg hrem] at h
          by_cases hb : b < 0
          · rw [if_pos hb] at h
            cases h3 : index d.Output (-1 - b) with
            | none => rw [h3] at h; simp at h
            | some y =>
              rw [h3] at h
              simp only [Option.some.injEq, Prod.mk.injEq] at h
              rw [← h.2]
              simp only
              omega
          · rw [if_neg hb] at h
            cases h3 : search s.input b s.i 0 with
            | none => rw [h3] at h; simp at h
            | some idx =>
              rw [h3] at h
              simp only at h
              by_cases hneg : idx < 0
              · rw [if_pos hneg] at h; simp at h
              · rw [if_neg hneg] at h
                simp only [Option.some.injEq, Prod.mk.injEq] at h
                rw [← h.2]
                simp only
                omega

end BoundLemmas

section MoveCount
variable {α κ : Type} {key : α → κ} {d : differ α} {output : List Int}
  {removed : GoMap Int Bool}

theorem matchedCount_succ (output : List Int) (o : Nat) (b : Int) (hb : output[o]? = some b) :
    matchedCount output (o + 1) = matchedCount output o + (if 0 ≤ b then 1 else 0) := by
  unfold matchedCount
  rw [take_succ_of_getElem? hb, List.filter_append, List.length_append]
  by_cases h : 0 ≤ b <;> simp [h]

theorem matchedCount_pos (output : List Int) (o : Nat) (c : Int) (hc : c ∈ output.take o)
    (h0 : 0 ≤ c) : 1 ≤ matchedCount output o := by
  unfold matchedCount
  have : c ∈ (output.take o).filter (fun c => decide (0 ≤ c)) :=
    List.mem_filter.mpr ⟨hc, by simpa using h0⟩
  exact List.length_pos_of_mem this

theorem index_isSome_nonneg {β : Type} {xs : List β} {c : Int}
    (h : (index xs c).isSome = true) : 0 ≤ c := by
  obtain ⟨x, hx⟩ := Option.isSome_iff_exists.mp h
  exact (index_eq_some hx).1

/-- A trace whose unprocessed codes are distinct, each removed or awaited by one of the first
`o` outputs, holds fewer moves than matched pairs among those outputs. -/
theorem Trace.moves_le {L : List Int} {o : Nat} {ops : List (Op α)}
    (h : Trace key d output removed L o ops) :
    L.Nodup → (∀ c ∈ L, (removed.lookup c).getD false = false → c ∈ output.take o) →
      countMoves ops ≤ matchedCount output o - 1 := by
  induction h with
  | done => intro _ _; simp [countMoves]
  | insertAll o _ _ _ => intro _ _; simp [countMoves]
  | deleteAll L _ _ => intro _ _; simp [countMoves]
  | same L a o x y ops hb _ _ _ _ _ ih =>
    intro hnd hmem
    have haL : a ∉ L := fun h => List.disjoint_of_nodup_append hnd h (by simp)
    have := ih (List.nodup_append.mp hnd).1 (by
      intro c hc hrem
      have := hmem c (List.mem_append_left _ hc) hrem
      rw [take_succ_of_getElem? hb] at this
      rcases List.mem_append.mp this with h | h
      · exact h
      · simp only [List.mem_singleton] at h
        subst h
        exact absurd hc haL)
    rw [matchedCount_succ output o a hb]
    omega
  | delete L a b o x ops _ _ _ _ _ ih =>
    intro hnd hmem
    simp only [countMoves]
    exact ih (List.nodup_append.mp hnd).1 (fun c hc hrem =>
      hmem c (List.mem_append_left _ hc) hrem)
  | insert L a b o y ops hb _ _ hbv _ htr ih =>
    intro hnd hmem
    simp only [countMoves]
    have := ih hnd (by
      intro c hc hrem
      have h1 := hmem c hc hrem
      rw [take_succ_of_getElem? hb] at h1
      rcases List.mem_append.mp h1 with h | h
      · exact h
      · simp only [List.mem_singleton] at h
        have := index_isSome_nonneg (htr.valid c hc)
        omega)
    rw [matchedCount_succ output o b hb]
    omega
  | move A B a b o x y ops hb hab hrema _ _ hx _ _ htr ih =>
    intro hnd hmem
    simp only [countMoves]
    have hsub : (A ++ (B ++ [a])).Sublist (A ++ b :: (B ++ [a])) :=
      List.Sublist.append (List.Sublist.refl A) (List.sublist_cons_self b _)
    have hbnot : b ∉ A ++ (B ++ [a]) := by
      intro h
      rcases List.mem_append.mp h with h | h
      · exact List.disjoint_of_nodup_append hnd h (by simp)
      · exact (List.nodup_cons.mp (List.nodup_append.mp hnd).2.1).1 h
    have hsubmem : ∀ c ∈ A ++ (B ++ [a]), (removed.lookup c).getD false = false →
        c ∈ output.take o := by
      intro c hc hrem
      have h1 := hmem c (hsub.subset hc) hrem
      rw [take_succ_of_getElem? hb] at h1
      rcases List.mem_append.mp h1 with h | h
      · exact h
      · simp only [List.mem_singleton] at h
        subst h
        exact absurd hc hbnot
    have := ih (hnd.sublist hsub) hsubmem
    have haIn : a ∈ A ++ (B ++ [a]) := by simp
    have hpos := matchedCount_pos output o a (hsubmem a haIn hrema)
      (index_isSome_nonneg (htr.valid a haIn))
    have hb0 := (index_eq_some hx).1
    rw [matchedCount_succ output o b hb, if_pos hb0]
    omega

end MoveCount

section Claims

variable {α κ : Type} [DecidableEq κ]

/-- C1 (convergence): `Edits` returns, and applying the emitted operations in emission order
to the input, with the array callbacks of the test, yields a sequence of the length of the
output whose key at every position is the key of the output at that position. -/
theorem C1_convergence (key : α → κ) (inp out : List α) :
    ∃ (ops : List (Op α)) (V : List α), Edits key inp out = some ops ∧
      applyOps ops inp = some V ∧
      V.length = out.length ∧ ∀ j : Nat, (V[j]?).map key = (out[j]?).map key := by
  obtain ⟨ops, hops, htr⟩ := Edits_trace key inp out
  obtain ⟨R, hR, hRk⟩ := htr.converges []
  simp only [List.append_nil, List.take_length] at hR hRk
  rw [itemsAt_identity] at hR
  refine ⟨ops, R, hops, hR, ?_, ?_⟩
  · have := congrArg List.length hRk
    simpa using this
  · intro j
    rw [← List.getElem?_map, ← List.getElem?_map, hRk]

/-- C2 (ordinal matching): for the item `y` at output position `j`, with `c` the number of
earlier output positions that hold its key, the coded output at `j` is `p` whenever `p` is the
position of the `(c+1)`-th item with that key in the input, and it is `-(j+1)` whenever the
input has at most `c` items with that key. -/
theorem C2_ordinal_matching (key : α → κ) (inp out : List α) (j : Nat) (y : α)
    (hy : out[j]? = some y) :
    ∃ v : Int, (outputCoded key { Input := inp, Output := out })[j]? = some v ∧
      (∀ p : Nat, IsOccurrence key inp (key y) (occurrences key (key y) (out.take j)) p →
        v = (p : Int)) ∧
      (occurrences key (key y) inp ≤ occurrences key (key y) (out.take j) →
        v = -((j : Int) + 1)) :=
  (scanOutput_coded key { Input := inp, Output := out }).2.2.2 j y hy

/-- C2 at a concrete input: the third `1` of the output meets an input with two `1`s. -/
theorem C2_ordinal_matching_witness :
    [(1, 10), (1, 11), (1, 12)][2]? = some (1, 12) ∧
    ∃ v : Int, (outputCoded Prod.fst
        { Input := [(1, 0), (2, 1), (1, 2)], Output := [(1, 10), (1, 11), (1, 12)] })[2]?
          = some v ∧
      (∀ p : Nat, IsOccurrence Prod.fst [(1, 0), (2, 1), (1, 2)] (Prod.fst (1, 12))
          (occurrences Prod.fst (Prod.fst (1, 12)) ([(1, 10), (1, 11), (1, 12)].take 2)) p →
        v = (p : Int)) ∧
      (occurrences Prod.fst (Prod.fst (1, 12)) [(1, 0), (2, 1), (1, 2)]
          ≤ occurrences Prod.fst (Prod.fst (1, 12)) ([(1, 10), (1, 11), (1, 12)].take 2) →
        v = -((2 : Int) + 1)) :=
  ⟨by decide, C2_ordinal_matching (Prod.fst : Nat × Nat → Nat) [(1, 0), (2, 1), (1, 2)]
    [(1, 10), (1, 11), (1, 12)] 2 (1, 12) (by decide)⟩

/-- C3 (resolver partition invariant): the coded input is the identity array; every coded
output is negative or a valid input position; no non-negative code occurs at two output
positions; and the removed set holds exactly the input positions that do not occur in the
coded output. -/
theorem C3_resolver_partition (key : α → κ) (d : differ α) :
    inputCoded key d = (List.range d.Input.length).map Int.ofNat ∧
      (∀ c ∈ outputCoded key d, c < 0 ∨ (0 ≤ c ∧ c < (d.Input.length : Int))) ∧
      (∀ (j1 j2 : Nat) (c : Int), (outputCoded key d)[j1]? = some c →
        (outputCoded key d)[j2]? = some c → 0 ≤ c → j1 = j2) ∧
      (∀ c : Int, ((removedSet key d).lookup c).getD false = true ↔
        0 ≤ c ∧ c < (d.Input.length : Int) ∧ c ∉ outputCoded key d) := by
  have hr := resolved_coded key d
  refine ⟨hr.input_eq, ?_, ?_, hr.removed_iff⟩
  · intro c hc
    by_cases h : c < 0
    · exact Or.inl h
    · right
      obtain ⟨j, hj⟩ := List.getElem?_of_mem hc
      obtain ⟨x, y, hx, -, -, -⟩ := hr.output_pos hj (by omega)
      have := index_eq_some hx
      omega
  · intro j1 j2 c h1 h2 _
    have hnd := hr.output_nodup
    rw [List.nodup_iff_getElem?_ne_getElem?] at hnd
    have hlt2 : j2 < (outputCoded key d).length := (List.getElem?_eq_some_iff.mp h2).1
    have hlt1 : j1 < (outputCoded key d).length := (List.getElem?_eq_some_iff.mp h1).1
    rcases Nat.lt_trichotomy j1 j2 with h | h | h
    · exact absurd (h1.trans h2.symm) (hnd j1 j2 h hlt2)
    · exact h
    · exact absurd (h2.trans h1.symm) (hnd j2 j1 h hlt1)

/-- C4 (no-op on identical sequences): when the output has the same keys as the input, in the
same order, `Edits` emits no operation. -/
theorem C4_identical_noop (key : α → κ) (inp out : List α) (h : out.map key = inp.map key) :
    Edits key inp out = some [] := by
  unfold Edits Diff diff
  have hr := resolved_coded key { Input := inp, Output := out }
  have hout := outputCoded_identity key inp out h
  have hin := hr.input_eq
  simp only at hin
  rw [hout, hin]
  have hl : ((List.range inp.length).map Int.ofNat).length = inp.length := by simp
  rw [hl]
  apply run_identity
  · omega
  · intro j hj
    refine ⟨(j : Int), ?_, ?_⟩ <;>
    · rw [List.getElem?_map, List.getElem?_range hj]; rfl

/-- C4 at a concrete input with a repeated key and different payloads. -/
theorem C4_identical_noop_witness :
    [(1, 5), (1, 6), (2, 7)].map Prod.fst = [(1, 0), (1, 1), (2, 2)].map Prod.fst ∧
    Edits (Prod.fst : Nat × Nat → Nat) [(1, 0), (1, 1), (2, 2)] [(1, 5), (1, 6), (2, 7)]
      = some [] :=
  ⟨by decide, C4_identical_noop Prod.fst [(1, 0), (1, 1), (2, 2)] [(1, 5), (1, 6), (2, 7)]
    (by decide)⟩

/-- C5 (deletion-only): for a non-empty input and the empty output `Edits` emits exactly the
one call `splice(0, Input, [])` and no move; for the empty input and the empty output it emits
nothing. -/
theorem C5_deletion_only (key : α → κ) (inp : List α) (h : inp ≠ []) :
    Edits key inp [] = some [Op.splice 0 inp []] ∧ Edits key ([] : List α) [] = some [] := by
  constructor
  · obtain ⟨ops, hops, htr⟩ := Edits_trace key inp []
    rcases htr.of_zero rfl with ⟨hL, -⟩ | ⟨-, hopsEq⟩
    · exfalso
      apply h
      have := congrArg List.length hL
      simp only [List.length_map, List.length_range, List.length_nil] at this
      exact List.length_eq_zero.mp this
    · rw [hops, hopsEq]
      simp only
      rw [itemsAt_identity]
  · obtain ⟨ops, hops, htr⟩ := Edits_trace key ([] : List α) []
    rcases htr.of_zero rfl with ⟨-, hopsEq⟩ | ⟨hL, -⟩
    · rw [hops, hopsEq]
    · exact absurd rfl hL

/-- C5 at the input of the test case `DeleteAll`. -/
theorem C5_deletion_only_witness :
    [(1, 0), (2, 1), (3, 2)] ≠ ([] : List (Nat × Nat)) ∧
    (Edits (Prod.fst : Nat × Nat → Nat) [(1, 0), (2, 1), (3, 2)] []
        = some [Op.splice 0 [(1, 0), (2, 1), (3, 2)] []] ∧
      Edits (Prod.fst : Nat × Nat → Nat) [] [] = some []) :=
  ⟨by decide, C5_deletion_only Prod.fst [(1, 0), (2, 1), (3, 2)] (by decide)⟩

/-- C6 (insertion-only): for the empty input and a non-empty output `Edits` emits exactly the
one call `splice(0, [], Output)` and no move. -/
theorem C6_insertion_only (key : α → κ) (out : List α) (h : out ≠ []) :
    Edits key [] out = some [Op.splice 0 [] out] := by
  obtain ⟨ops, hops, htr⟩ := Edits_trace key ([] : List α) out
  rcases htr.of_nil rfl with ⟨h0, -⟩ | ⟨-, hopsEq⟩
  · exact absurd (List.length_eq_zero.mp h0) h
  · rw [hops, hopsEq]
    simp only [List.take_length]

/-- C6 at the input of the test case `InsertAll`. -/
theorem C6_insertion_only_witness :
    [(1, 0), (2, 1), (3, 2)] ≠ ([] : List (Nat × Nat)) ∧
    Edits (Prod.fst : Nat × Nat → Nat) [] [(1, 0), (2, 1), (3, 2)]
      = some [Op.splice 0 [] [(1, 0), (2, 1), (3, 2)]] :=
  ⟨by decide, C6_insertion_only Prod.fst [(1, 0), (2, 1), (3, 2)] (by decide)⟩

/-- C7 (pure reorder): when the keys of the output are a permutation of the keys of the
input, `Edits` emits no splice: every emitted operation is a move. -/
theorem C7_pure_reorder (key : α → κ) (inp out : List α)
    (h : (out.map key).Perm (inp.map key)) :
    ∃ ops : List (Op α), Edits key inp out = some ops ∧
      ∀ op ∈ ops, ∃ offset count distance, op = Op.move offset count distance := by
  have hr := resolved_coded key { Input := inp, Output := out }
  obtain ⟨ops, hops, htr⟩ := Edits_trace key inp out
  refine ⟨ops, hops, htr.only_moves ?_ ?_ ?_⟩
  · intro c
    cases hc : (GoMap.lookup (removedSet key { Input := inp, Output := out }) c).getD false with
    | false => rfl
    | true =>
      exfalso
      obtain ⟨p, x, -, hx, hle⟩ := (hr.removed_spec c).mp hc
      simp only at hx hle
      have := (isOccurrence_self key inp p x hx).lt_occurrences
      rw [occurrences_perm key (key x) out inp h] at hle
      omega
  · intro j v hv
    obtain ⟨y, hy, ⟨-, hle⟩ | ⟨p, hp, -⟩⟩ := hr.output_cases hv
    · exfalso
      simp only at hy hle
      have := (isOccurrence_self key out j y hy).lt_occurrences
      rw [occurrences_perm key (key y) out inp h] at this
      omega
    · omega
  · have := h.length_eq
    simpa using this.symm

/-- C7 at the input of the test case `Shuffle`. -/
theorem C7_pure_reorder_witness :
    ([(3, 0), (2, 1), (1, 2)].map Prod.fst).Perm ([(1, 0), (2, 1), (3, 2)].map Prod.fst) ∧
    ∃ ops : List (Op (Nat × Nat)),
      Edits Prod.fst [(1, 0), (2, 1), (3, 2)] [(3, 0), (2, 1), (1, 2)] = some ops ∧
      ∀ op ∈ ops, ∃ offset count distance, op = Op.move offset count distance :=
  ⟨by decide, C7_pure_reorder Prod.fst [(1, 0), (2, 1), (3, 2)] [(3, 0), (2, 1), (1, 2)]
    (by decide)⟩

/-- C8 (surviving items are never deleted or inserted): the items in the `before` lists of the
emitted splices are, each exactly once, the input items at the positions of the removed set;
the items in the `after` lists are, each exactly once, the output items at the positions with a
negative code; so with `m` non-negative codes the splices delete `len(Input) - m` items and
insert `len(Output) - m` items. For Input = [a,b,c] and Output = [d,c,b] that is the one
deletion of `a` and the one insertion of `d`. -/
theorem C8_survivors_untouched (key : α → κ) (inp out : List α) :
    (∃ ops : List (Op α), Edits key inp out = some ops ∧
      (deleted ops).Perm (itemsAt inp
        ((inputCoded key { Input := inp, Output := out }).filter
          (fun c => ((removedSet key { Input := inp, Output := out }).lookup c).getD false))) ∧
      (inserted ops).Perm
        (unmatched out (outputCoded key { Input := inp, Output := out }) out.length) ∧
      (deleted ops).length
        + ((outputCoded key { Input := inp, Output := out }).filter
            (fun c => decide (0 ≤ c))).length = inp.length ∧
      (inserted ops).length
        + ((outputCoded key { Input := inp, Output := out }).filter
            (fun c => decide (0 ≤ c))).length = out.length) ∧
    (∃ ops : List (Op (Nat × Nat)),
      Edits Prod.fst [(1, 0), (2, 1), (3, 2)] [(4, 0), (3, 1), (2, 2)] = some ops ∧
      deleted ops = [(1, 0)] ∧ inserted ops = [(4, 0)]) := by
  constructor
  · have hr := resolved_coded key { Input := inp, Output := out }
    obtain ⟨ops, hops, htr⟩ := Edits_trace key inp out
    have hdel := htr.deleted_perm
    have hins := htr.inserted_perm
    have hin := hr.input_eq
    simp only at hin hdel hins
    rw [← hin] at hdel
    refine ⟨ops, hops, hdel, hins, ?_, ?_⟩
    · rw [hdel.length_eq, itemsAt_length]
      · exact hr.removed_count
      · intro c hc
        have hc1 := (List.mem_filter.mp hc).1
        rw [hin] at hc1
        exact htr.valid c hc1
    · rw [hins.length_eq, unmatched_length out _ hr.output_len.symm]
      have h := length_filter_add (fun c : Int => decide (c < 0)) (fun c : Int => decide (0 ≤ c))
        (fun c => by
          by_cases h : c < 0
          · have h1 : ¬ 0 ≤ c := by omega
            simp [h, h1]
          · have h1 : 0 ≤ c := by omega
            simp [h, h1])
        (outputCoded key { Input := inp, Output := out })
      rw [hr.output_len] at h
      exact h
  · exact ⟨[Op.move 1 1 1, Op.splice 0 [(1, 0)] [], Op.splice 0 [] [(4, 0)]],
      by decide, by decide, by decide⟩

/-- C9 (duplicate keys survive by ordinal occurrence): for every key `k` occurring `b` times
in the output, the deleted input items with key `k` are exactly the input items with key `k`
after the first `b` (none when the input has at most `b`), and when the input items are
pairwise distinct none of the first `b` is deleted. For Input = [x,x] and Output = [x] the
one deletion is that of the second `x`. -/
theorem C9_duplicates_by_ordinal (key : α → κ) (inp out : List α) :
    (∃ ops : List (Op α), Edits key inp out = some ops ∧
      (∀ k : κ, ((deleted ops).filter (fun x => decide (key x = k))).Perm
        ((inp.filter (fun x => decide (key x = k))).drop (occurrences key k out))) ∧
      (inp.Nodup → ∀ k : κ,
        ∀ x ∈ (inp.filter (fun x => decide (key x = k))).take (occurrences key k out),
          x ∉ deleted ops)) ∧
    Edits (Prod.fst : Nat × Nat → Nat) [(7, 0), (7, 1)] [(7, 5)]
      = some [Op.splice 1 [(7, 1)] []] := by
  constructor
  · have hr := resolved_coded key { Input := inp, Output := out }
    obtain ⟨ops, hops, htr⟩ := Edits_trace key inp out
    have hdel := htr.deleted_perm
    have hperm : ∀ k : κ, ((deleted ops).filter (fun x => decide (key x = k))).Perm
        ((inp.filter (fun x => decide (key x = k))).drop (occurrences key k out)) := by
      intro k
      have h1 := hdel.filter (fun x => decide (key x = k))
      have h2 := surplus_filter key inp out
        (fun c => ((removedSet key { Input := inp, Output := out }).lookup c).getD false)
        hr.removed_spec k inp [] (by simp)
      simp only at h1
      rw [h2] at h1
      exact h1
    refine ⟨ops, hops, hperm, ?_⟩
    intro hnd k x hx hdx
    have hxF : x ∈ inp.filter (fun x => decide (key x = k)) := List.mem_of_mem_take hx
    have hk : decide (key x = k) = true := (List.mem_filter.mp hxF).2
    have hxd : x ∈ (deleted ops).filter (fun x => decide (key x = k)) :=
      List.mem_filter.mpr ⟨hdx, hk⟩
    have hxdrop := (hperm k).subset hxd
    have hndF : ((inp.filter (fun x => decide (key x = k))).take (occurrences key k out)
        ++ (inp.filter (fun x => decide (key x = k))).drop (occurrences key k out)).Nodup := by
      rw [List.take_append_drop]
      exact hnd.filter _
    exact List.disjoint_of_nodup_append hndF hx hxdrop
  · decide

/-- C10 (splice purity): every splice emitted by `Edits` has exactly one of its `before` and
`after` lists non-empty. -/
theorem C10_splice_purity (key : α → κ) (inp out : List α) :
    ∃ ops : List (Op α), Edits key inp out = some ops ∧
      ∀ (offset : Int) (before after : List α), Op.splice offset before after ∈ ops →
        (before = [] ∧ after ≠ []) ∨ (before ≠ [] ∧ after = []) := by
  obtain ⟨ops, hops, htr⟩ := Edits_trace key inp out
  exact ⟨ops, hops, htr.splice_pure⟩

/-- C11 (every emitted operation is applicable to the current version): when the operations
emitted by `Edits` are applied in order starting from the input, every splice has
`0 ≤ offset`, `offset + len(before) ≤` the current length and a `before` list equal to the
items currently at `offset ..`, every move has `0 ≤ offset` and
`offset + count + distance ≤` the current length, and no callback runs out of range. -/
theorem C11_operations_applicable (key : α → κ) (inp out : List α) :
    ∃ ops : List (Op α), Edits key inp out = some ops ∧ AllApplicable ops inp := by
  obtain ⟨ops, hops, htr⟩ := Edits_trace key inp out
  have := htr.applicable []
  simp only [List.append_nil] at this
  rw [itemsAt_identity] at this
  exact ⟨ops, hops, this⟩

/-- C12 (determinism): the operations emitted are a function of the input and the output
alone: building the removed set from the leftover entries of the correspondence map in any
enumeration order `vs` makes `diff` emit the same operation sequence as `Diff`. -/
theorem C12_determinism (key : α → κ) (d : differ α) (vs : List Int)
    (h : vs.Perm (GoMap.values (Diff.coded key d).2.2)) :
    diff d (inputCoded key d) (outputCoded key d) (buildRemoved vs) = Diff key d := by
  unfold Diff diff removedSet
  exact run_congr d _ _ _ (buildRemoved_perm _ _ h) _ _

/-- C12 at a concrete input whose leftover entries are enumerated in the opposite order. -/
theorem C12_determinism_witness :
    ([0, 2] : List Int).Perm (GoMap.values (Diff.coded (Prod.fst : Nat × Nat → Nat)
        { Input := [(1, 0), (2, 1), (3, 2)], Output := [(2, 5)] }).2.2) ∧
    diff { Input := [(1, 0), (2, 1), (3, 2)], Output := [(2, 5)] }
        (inputCoded (Prod.fst : Nat × Nat → Nat)
          { Input := [(1, 0), (2, 1), (3, 2)], Output := [(2, 5)] })
        (outputCoded (Prod.fst : Nat × Nat → Nat)
          { Input := [(1, 0), (2, 1), (3, 2)], Output := [(2, 5)] })
        (buildRemoved [0, 2])
      = Diff (Prod.fst : Nat × Nat → Nat)
          { Input := [(1, 0), (2, 1), (3, 2)], Output := [(2, 5)] } :=
  ⟨by decide, C12_determinism Prod.fst
    { Input := [(1, 0), (2, 1), (3, 2)], Output := [(2, 5)] } [0, 2] (by decide)⟩

/-- C13 (the move search always succeeds and its match is unique): at every state the loop
visits in which the moved branch is taken (the last codes differ, the last input code is not
removed and the last output code is not negative) exactly one index below `i` holds the
output code, the search returns that index and not `-1`, and the iteration emits the move
without a panic. -/
theorem C13_move_search_succeeds (key : α → κ) (d : differ α) (acc : List (Op α))
    (s : LoopState) (a b : Int)
    (hreach : Reaches d (outputCoded key d) (removedSet key d)
      (initial (inputCoded key d) (outputCoded key d)) acc s)
    (hi : 0 < s.i) (ho : 0 < s.o)
    (ha : s.input[s.i - 1]? = some a) (hb : (outputCoded key d)[s.o - 1]? = some b)
    (hne : a ≠ b) (hrem : ((removedSet key d).lookup a).getD false = false) (hb0 : 0 ≤ b) :
    (∃! idx : Nat, idx < s.i ∧ s.input[idx]? = some b) ∧
      ∃ (idx : Nat) (s1 : LoopState), idx < s.i ∧ s.input[idx]? = some b ∧
        search s.input b s.i 0 = some (idx : Int) ∧
        step d (outputCoded key d) (removedSet key d) s
          = some ([Op.move (idx : Int) 1 ((s.i : Int) - 1 - (idx : Int))], s1) := by
  have hinv := hreach.inv_coded key d
  obtain ⟨a1, b1, ha1, hb1, -, hcase⟩ := step_cases (resolved_coded key d) s hinv hi ho
  rw [ha] at ha1
  rw [hb] at hb1
  cases ha1
  cases hb1
  rcases hcase with ⟨h, -⟩ | ⟨-, h, -⟩ | ⟨-, -, h, -⟩ | ⟨-, -, -, -, A, B, x, y, hfull, hbA, hbB, hsearch, -, -, -, hstep⟩
  · exact absurd h hne
  · rw [hrem] at h; cases h
  · omega
  · have hlen : (s.input.take s.i).length = s.i := by
      rw [List.length_take]
      have := hinv.i_le
      omega
    have hAi : A.length + 1 + (B.length + 1) = s.i := by
      rw [hfull] at hlen
      simp only [List.length_append, List.length_cons, List.length_singleton,
        List.length_nil] at hlen
      omega
    have hAlt : A.length < s.i := by omega
    have hget : s.input[A.length]? = some b := by
      rw [← List.getElem?_take_of_lt hAlt, hfull, List.getElem?_append_right (le_refl _)]
      simp
    have hnd := hinv.nodup
    rw [List.nodup_iff_getElem?_ne_getElem?] at hnd
    have huniq : ∀ idx : Nat, idx < s.i ∧ s.input[idx]? = some b → idx = A.length := by
      rintro idx ⟨hidx, hgetidx⟩
      have e1 : (s.input.take s.i)[idx]? = some b := by
        rw [List.getElem?_take_of_lt hidx]; exact hgetidx
      have e2 : (s.input.take s.i)[A.length]? = some b := by
        rw [List.getElem?_take_of_lt hAlt]; exact hget
      rcases Nat.lt_trichotomy idx A.length with h | h | h
      · exact absurd (e1.trans e2.symm) (hnd idx A.length h (by rw [hlen]; exact hAlt))
      · exact h
      · exact absurd (e2.trans e1.symm) (hnd A.length idx h (by rw [hlen]; exact hidx))
    refine ⟨⟨A.length, ⟨hAlt, hget⟩, huniq⟩, A.length,
      { input := A ++ (B ++ [a]), i := s.i - 1, o := s.o - 1 }, hAlt, hget, hsearch, ?_⟩
    have e : (s.i : Int) - 1 - (A.length : Int) = (B.length : Int) + 1 := by omega
    rw [e]
    exact hstep

/-- C13 at the first iteration of the test case `Shuffle`: the last codes are 2 and 0. -/
theorem C13_move_search_succeeds_witness :
    (∃! idx : Nat, idx < (initial (inputCoded Prod.fst shuffle)
          (outputCoded Prod.fst shuffle)).i ∧
        (initial (inputCoded Prod.fst shuffle) (outputCoded Prod.fst shuffle)).input[idx]?
          = some 0) ∧
      ∃ (idx : Nat) (s1 : LoopState),
        idx < (initial (inputCoded Prod.fst shuffle) (outputCoded Prod.fst shuffle)).i ∧
        (initial (inputCoded Prod.fst shuffle) (outputCoded Prod.fst shuffle)).input[idx]?
          = some 0 ∧
        search (initial (inputCoded Prod.fst shuffle) (outputCoded Prod.fst shuffle)).input 0
          (initial (inputCoded Prod.fst shuffle) (outputCoded Prod.fst shuffle)).i 0
            = some (idx : Int) ∧
        step shuffle (outputCoded Prod.fst shuffle) (removedSet Prod.fst shuffle)
            (initial (inputCoded Prod.fst shuffle) (outputCoded Prod.fst shuffle))
          = some ([Op.move (idx : Int) 1
              (((initial (inputCoded Prod.fst shuffle) (outputCoded Prod.fst shuffle)).i : Int)
                - 1 - (idx : Int))], s1) :=
  C13_move_search_succeeds Prod.fst shuffle []
    (initial (inputCoded Prod.fst shuffle) (outputCoded Prod.fst shuffle)) 2 0
    Reaches.start (by decide) (by decide) (by decide) (by decide) (by decide) (by decide)
    (by decide)

/-- C14 (shape of every move): every move emitted by `Edits` has count 1, a non-negative
offset and a distance of at least 1, and it is emitted by a loop iteration at a visited state
whose unprocessed input prefix has length `i = offset + 1 + distance`. -/
theorem C14_move_shape (key : α → κ) (inp out : List α) :
    ∃ ops : List (Op α), Edits key inp out = some ops ∧
      ∀ (offset count distance : Int), Op.move offset count distance ∈ ops →
        count = 1 ∧ 0 ≤ offset ∧ 1 ≤ distance ∧
        ∃ (acc ops1 : List (Op α)) (s s1 : LoopState),
          Reaches { Input := inp, Output := out }
            (outputCoded key { Input := inp, Output := out })
            (removedSet key { Input := inp, Output := out })
            (initial (inputCoded key { Input := inp, Output := out })
              (outputCoded key { Input := inp, Output := out })) acc s ∧
          0 < s.i ∧ 0 < s.o ∧
          step { Input := inp, Output := out }
            (outputCoded key { Input := inp, Output := out })
            (removedSet key { Input := inp, Output := out }) s = some (ops1, s1) ∧
          Op.move offset count distance ∈ ops1 ∧
          offset + 1 + distance = (s.i : Int) := by
  obtain ⟨ops, acc, fin, s2, hops, hreach, hexit, hfin, heq⟩ :=
    Diff_decompose key { Input := inp, Output := out }
  refine ⟨ops, hops, ?_⟩
  intro offset count distance hmem
  rw [heq] at hmem
  rcases List.mem_append.mp hmem with hm | hm
  · obtain ⟨acc1, ops1, s, s1, hreach1, hi, ho, hstep, hop⟩ :=
      mem_of_reaches_append hreach _ hm
    have hinv := hreach1.inv_coded key _
    obtain ⟨a, b, -, -, -, hcase⟩ :=
      step_cases (resolved_coded key { Input := inp, Output := out }) s hinv hi ho
    have hshape : count = 1 ∧ 0 ≤ offset ∧ 1 ≤ distance ∧
        offset + 1 + distance = (s.i : Int) := by
      rcases hcase with ⟨-, x, y, -, -, -, h⟩ | ⟨-, -, x, -, h⟩ | ⟨-, -, -, y, -, h⟩ |
          ⟨-, -, -, -, A, B, x, y, hfull, -, -, -, -, -, -, h⟩
      · rw [hstep] at h; cases h; simp at hop
      · rw [hstep] at h; cases h; simp at hop
      · rw [hstep] at h; cases h; simp at hop
      · rw [hstep] at h
        cases h
        simp only [List.mem_singleton, Op.move.injEq] at hop
        obtain ⟨rfl, rfl, rfl⟩ := hop
        have hlen : (s.input.take s.i).length = s.i := by
          rw [List.length_take]
          have := hinv.i_le
          omega
        rw [hfull] at hlen
        simp only [List.length_append, List.length_cons, List.length_singleton,
          List.length_nil] at hlen
        refine ⟨rfl, by omega, by omega, by omega⟩
    exact ⟨hshape.1, hshape.2.1, hshape.2.2.1, acc1, ops1, s, s1, hreach1, hi, ho, hstep, hop,
      hshape.2.2.2⟩
  · exact absurd hm (finish_splices _ _ _ _ hfin offset count distance)

/-- C15 (leftover outputs are all insertions): at a visited state where the loop exits with
`o > 0`, every code below `o` is the negative sentinel of its position, its decode index is
that position and is a valid output position, and the code after the loop emits the one bulk
`splice(0, [], Output[0..o))`, which ends the operation list of `Diff`. -/
theorem C15_leftover_outputs (key : α → κ) (d : differ α) (acc : List (Op α)) (s : LoopState)
    (hreach : Reaches d (outputCoded key d) (removedSet key d)
      (initial (inputCoded key d) (outputCoded key d)) acc s)
    (hexit : ¬ (0 < s.i ∧ 0 < s.o)) (ho : 0 < s.o) :
    (∀ kk : Nat, kk < s.o →
      ∃ c : Int, (outputCoded key d)[kk]? = some c ∧ c < 0 ∧ c = -((kk : Int) + 1) ∧
        -1 - c = (kk : Int) ∧ kk < d.Output.length) ∧
      finish d (outputCoded key d) s = some [Op.splice 0 [] (d.Output.take s.o)] ∧
      Diff key d = some (acc ++ [Op.splice 0 [] (d.Output.take s.o)]) := by
  have hinv := hreach.inv_coded key d
  have hr := resolved_coded key d
  obtain ⟨hi0, hfin⟩ := finish_outputs key d hreach hexit ho
  refine ⟨?_, hfin, hreach.diff_eq key d hexit hfin⟩
  intro kk hkk
  have hlt : kk < (outputCoded key d).length := by
    have := hinv.o_le
    omega
  have hget : (outputCoded key d)[kk]? = some (outputCoded key d)[kk] :=
    List.getElem?_eq_getElem hlt
  have hmem : (outputCoded key d)[kk] ∈ (outputCoded key d).take s.o := by
    rw [List.mem_iff_getElem?]
    exact ⟨kk, by rw [List.getElem?_take_of_lt hkk]; exact hget⟩
  have hneg : (outputCoded key d)[kk] < 0 := by
    by_contra hge
    have := hinv.output_mem _ hmem (by omega)
    rw [hi0] at this
    simp at this
  have hval := hr.output_neg hget hneg
  refine ⟨_, hget, hneg, hval, by omega, ?_⟩
  rw [← hr.output_len]
  exact hlt

/-- C15 at the test case `InsertAll`, whose loop exits at once with `o = 3`. -/
theorem C15_leftover_outputs_witness :
    (∀ kk : Nat, kk < (initial (inputCoded Prod.fst insertAll)
        (outputCoded Prod.fst insertAll)).o →
      ∃ c : Int, (outputCoded Prod.fst insertAll)[kk]? = some c ∧ c < 0 ∧
        c = -((kk : Int) + 1) ∧ -1 - c = (kk : Int) ∧ kk < insertAll.Output.length) ∧
      finish insertAll (outputCoded Prod.fst insertAll)
          (initial (inputCoded Prod.fst insertAll) (outputCoded Prod.fst insertAll))
        = some [Op.splice 0 [] (insertAll.Output.take
            (initial (inputCoded Prod.fst insertAll) (outputCoded Prod.fst insertAll)).o)] ∧
      Diff Prod.fst insertAll
        = some ([] ++ [Op.splice 0 [] (insertAll.Output.take
            (initial (inputCoded Prod.fst insertAll) (outputCoded Prod.fst insertAll)).o)]) :=
  C15_leftover_outputs Prod.fst insertAll []
    (initial (inputCoded Prod.fst insertAll) (outputCoded Prod.fst insertAll))
    Reaches.start (by decide) (by decide)

/-- C16 (leftover inputs are all deletions): at a visited state where the loop exits with
`i > 0`, `o` is 0, every unprocessed coded input is in the removed set, and the code after
the loop emits the one bulk `splice(0, items, [])`, which ends the operation list of `Diff`;
at every exit state the code after the loop emits at most one splice. -/
theorem C16_leftover_inputs (key : α → κ) (d : differ α) (acc : List (Op α)) (s : LoopState)
    (hreach : Reaches d (outputCoded key d) (removedSet key d)
      (initial (inputCoded key d) (outputCoded key d)) acc s)
    (hexit : ¬ (0 < s.i ∧ 0 < s.o)) (hi : 0 < s.i) :
    s.o = 0 ∧
      (∀ kk : Nat, kk < s.i → ∃ c : Int, s.input[kk]? = some c ∧
        ((removedSet key d).lookup c).getD false = true) ∧
      finish d (outputCoded key d) s
        = some [Op.splice 0 (itemsAt d.Input (s.input.take s.i)) []] ∧
      Diff key d = some (acc ++ [Op.splice 0 (itemsAt d.Input (s.input.take s.i)) []]) ∧
      (∀ (acc2 : List (Op α)) (s2 : LoopState),
        Reaches d (outputCoded key d) (removedSet key d)
          (initial (inputCoded key d) (outputCoded key d)) acc2 s2 →
        ¬ (0 < s2.i ∧ 0 < s2.o) →
        ∃ fin : List (Op α), finish d (outputCoded key d) s2 = some fin ∧ fin.length ≤ 1) := by
  have hinv := hreach.inv_coded key d
  obtain ⟨ho0, hfin⟩ := finish_inputs key d hreach hexit hi
  refine ⟨ho0, ?_, hfin, hreach.diff_eq key d hexit hfin, ?_⟩
  · intro kk hkk
    have hlt : kk < s.input.length := by
      have := hinv.i_le
      omega
    have hget : s.input[kk]? = some s.input[kk] := List.getElem?_eq_getElem hlt
    have hmem : s.input[kk] ∈ s.input.take s.i := by
      rw [List.mem_iff_getElem?]
      exact ⟨kk, by rw [List.getElem?_take_of_lt hkk]; exact hget⟩
    obtain ⟨-, -, hrem⟩ := hinv.input_mem _ hmem
    refine ⟨_, hget, ?_⟩
    rcases hrem with h | h
    · exact h
    · rw [ho0] at h
      simp at h
  · intro acc2 s2 hreach2 hexit2
    by_cases ho2 : 0 < s2.o
    · exact ⟨_, (finish_outputs key d hreach2 hexit2 ho2).2, by simp⟩
    · by_cases hi2 : 0 < s2.i
      · exact ⟨_, (finish_inputs key d hreach2 hexit2 hi2).2, by simp⟩
      · refine ⟨[], ?_, by simp⟩
        simp [finish, ho2, hi2]

/-- C16 at the test case `DeleteAll`, whose loop exits at once with `i = 3`. -/
theorem C16_leftover_inputs_witness :
    (initial (inputCoded Prod.fst deleteAll) (outputCoded Prod.fst deleteAll)).o = 0 ∧
      (∀ kk : Nat, kk < (initial (inputCoded Prod.fst deleteAll)
          (outputCoded Prod.fst deleteAll)).i →
        ∃ c : Int, (initial (inputCoded Prod.fst deleteAll)
            (outputCoded Prod.fst deleteAll)).input[kk]? = some c ∧
          ((removedSet Prod.fst deleteAll).lookup c).getD false = true) ∧
      finish deleteAll (outputCoded Prod.fst deleteAll)
          (initial (inputCoded Prod.fst deleteAll) (outputCoded Prod.fst deleteAll))
        = some [Op.splice 0 (itemsAt deleteAll.Input
            ((initial (inputCoded Prod.fst deleteAll)
              (outputCoded Prod.fst deleteAll)).input.take
                (initial (inputCoded Prod.fst deleteAll)
                  (outputCoded Prod.fst deleteAll)).i)) []] ∧
      Diff Prod.fst deleteAll
        = some ([] ++ [Op.splice 0 (itemsAt deleteAll.Input
            ((initial (inputCoded Prod.fst deleteAll)
              (outputCoded Prod.fst deleteAll)).input.take
                (initial (inputCoded Prod.fst deleteAll)
                  (outputCoded Prod.fst deleteAll)).i)) []]) ∧
      (∀ (acc2 : List (Op (Nat × Nat))) (s2 : LoopState),
        Reaches deleteAll (outputCoded Prod.fst deleteAll) (removedSet Prod.fst deleteAll)
          (initial (inputCoded Prod.fst deleteAll) (outputCoded Prod.fst deleteAll)) acc2 s2 →
        ¬ (0 < s2.i ∧ 0 < s2.o) →
        ∃ fin : List (Op (Nat × Nat)),
          finish deleteAll (outputCoded Prod.fst deleteAll) s2 = some fin ∧ fin.length ≤ 1) :=
  C16_leftover_inputs Prod.fst deleteAll []
    (initial (inputCoded Prod.fst deleteAll) (outputCoded Prod.fst deleteAll))
    Reaches.start (by decide) (by decide)

/-- C17 (tail-to-head loop invariant): at every state the loop visits, the current version
(the input with the operations emitted so far applied) has length `i + (len(Output) - o)`,
its first `i` items are the input items at the first `i` codes of the current coded input
array, and its other items agree by key, in order, with `Output[o..]`; every later visited
state, and the code after the loop, keep that suffix as the tail of the version. -/
theorem C17_loop_invariant (key : α → κ) (d : differ α) (acc : List (Op α)) (s : LoopState)
    (hreach : Reaches d (outputCoded key d) (removedSet key d)
      (initial (inputCoded key d) (outputCoded key d)) acc s) :
    ∃ V : List α, applyOps acc d.Input = some V ∧
      V.length = s.i + (d.Output.length - s.o) ∧
      V.take s.i = itemsAt d.Input (s.input.take s.i) ∧
      (V.drop s.i).map key = (d.Output.drop s.o).map key ∧
      ∀ (more : List (Op α)) (s2 : LoopState),
        Reaches d (outputCoded key d) (removedSet key d) s more s2 →
        ∃ (V2 mid : List α), applyOps more V = some V2 ∧
          V2.drop s2.i = mid ++ V.drop s.i ∧
          (¬ (0 < s2.i ∧ 0 < s2.o) →
            ∃ (fin : List (Op α)) (V3 R : List α),
              finish d (outputCoded key d) s2 = some fin ∧ applyOps fin V2 = some V3 ∧
              V3 = R ++ (mid ++ V.drop s.i)) := by
  have hr := resolved_coded key d
  have h0 := inv_init hr
  have hinv := hreach.inv_coded key d
  obtain ⟨mid, hmid, hkey, hlen⟩ := Reaches.effect hr h0 hreach
  have hV := hmid []
  simp only [List.take_length, List.append_nil] at hV
  rw [hr.input_eq, itemsAt_identity] at hV
  have hplen := hinv.prefix_length
  have hdrop : (itemsAt d.Input (s.input.take s.i) ++ mid).drop s.i = mid := by
    rw [List.drop_left' hplen]
  have hmidlen : mid.length = d.Output.length - s.o := by
    simp only at hlen
    rw [hr.output_len] at hlen
    omega
  refine ⟨itemsAt d.Input (s.input.take s.i) ++ mid, hV, ?_, ?_, ?_, ?_⟩
  · rw [List.length_append, hplen, hmidlen]
  · rw [List.take_left' hplen]
  · rw [hdrop]
    simp only at hkey
    rw [hr.output_len] at hkey
    simpa using hkey
  · intro more s2 hreach2
    have hinv2 := Reaches.inv hr hinv hreach2
    obtain ⟨mid2, hmid2, -, -⟩ := Reaches.effect hr hinv hreach2
    have hplen2 := hinv2.prefix_length
    refine ⟨itemsAt d.Input (s2.input.take s2.i) ++ (mid2 ++ mid), mid2, hmid2 mid, ?_, ?_⟩
    · rw [List.drop_left' hplen2, hdrop]
    · intro hexit
      obtain ⟨fin, hfin, htr⟩ := finish_spec hr s2 hinv2 hexit
      obtain ⟨R, hR, -⟩ := htr.converges (mid2 ++ mid)
      exact ⟨fin, _, R, hfin, hR, by rw [hdrop]⟩

/-- C17 at the test case `Shuffle`, after the first iteration, which moves `a` to the end. -/
theorem C17_loop_invariant_witness :
    ∃ V : List (Nat × Nat), applyOps ([] ++ [Op.move 0 1 2]) shuffle.Input = some V ∧
      V.length = ({ input := [1, 2], i := 2, o := 2 } : LoopState).i
        + (shuffle.Output.length - ({ input := [1, 2], i := 2, o := 2 } : LoopState).o) ∧
      V.take ({ input := [1, 2], i := 2, o := 2 } : LoopState).i
        = itemsAt shuffle.Input
          (({ input := [1, 2], i := 2, o := 2 } : LoopState).input.take
            ({ input := [1, 2], i := 2, o := 2 } : LoopState).i) ∧
      (V.drop ({ input := [1, 2], i := 2, o := 2 } : LoopState).i).map Prod.fst
        = (shuffle.Output.drop ({ input := [1, 2], i := 2, o := 2 } : LoopState).o).map
            Prod.fst ∧
      ∀ (more : List (Op (Nat × Nat))) (s2 : LoopState),
        Reaches shuffle (outputCoded Prod.fst shuffle) (removedSet Prod.fst shuffle)
          { input := [1, 2], i := 2, o := 2 } more s2 →
        ∃ (V2 mid : List (Nat × Nat)), applyOps more V = some V2 ∧
          V2.drop s2.i = mid ++ V.drop ({ input := [1, 2], i := 2, o := 2 } : LoopState).i ∧
          (¬ (0 < s2.i ∧ 0 < s2.o) →
            ∃ (fin : List (Op (Nat × Nat))) (V3 R : List (Nat × Nat)),
              finish shuffle (outputCoded Prod.fst shuffle) s2 = some fin ∧
              applyOps fin V2 = some V3 ∧
              V3 = R ++ (mid ++ V.drop ({ input := [1, 2], i := 2, o := 2 } : LoopState).i)) :=
  C17_loop_invariant Prod.fst shuffle ([] ++ [Op.move 0 1 2])
    { input := [1, 2], i := 2, o := 2 }
    (Reaches.next [] [Op.move 0 1 2]
      (initial (inputCoded Prod.fst shuffle) (outputCoded Prod.fst shuffle))
      { input := [1, 2], i := 2, o := 2 } Reaches.start (by decide) (by decide) (by decide))

/-- C18 (termination and operation bound): `Edits` returns within its iteration budget and
emits at most `len(Input) + len(Output)` operations, and every iteration of the loop strictly
decreases `i + o`. -/
theorem C18_termination_bound (key : α → κ) (inp out : List α) :
    (∃ ops : List (Op α), Edits key inp out = some ops ∧
      ops.length ≤ inp.length + out.length) ∧
    (∀ (d : differ α) (output : List Int) (removed : GoMap Int Bool) (s s1 : LoopState)
      (ops1 : List (Op α)), 0 < s.i → 0 < s.o →
      step d output removed s = some (ops1, s1) → s1.i + s1.o < s.i + s.o) := by
  constructor
  · obtain ⟨ops, hops, htr⟩ := Edits_trace key inp out
    have := htr.length_le
    simp only [List.length_map, List.length_range] at this
    exact ⟨ops, hops, this⟩
  · intro d output removed s s1 ops1 hi ho h
    exact step_decreases d output removed s s1 ops1 hi ho h

/-- C19 (not optimal): for Input = [a,b,c] and Output = [c,a,b] `Edits` emits the two moves
`move(1,1,1)` and `move(0,1,1)`, although the single operation `move(0,2,1)` already converts
the input into the output: the emitted list is longer than the shortest converting one. -/
theorem C19_not_optimal :
    Edits (Prod.fst : Nat × Nat → Nat) [(1, 0), (2, 1), (3, 2)] [(3, 0), (1, 1), (2, 2)]
        = some [Op.move 1 1 1, Op.move 0 1 1] ∧
      applyOps [Op.move 0 2 1] [(1, 0), (2, 1), (3, 2)] = some [(3, 2), (1, 0), (2, 1)] ∧
      [(3, 2), (1, 0), (2, 1)].map Prod.fst = [(3, 0), (1, 1), (2, 2)].map Prod.fst ∧
      ∃ (ops alt : List (Op (Nat × Nat))) (V : List (Nat × Nat)),
        Edits Prod.fst [(1, 0), (2, 1), (3, 2)] [(3, 0), (1, 1), (2, 2)] = some ops ∧
        applyOps alt [(1, 0), (2, 1), (3, 2)] = some V ∧
        V.map Prod.fst = [(3, 0), (1, 1), (2, 2)].map Prod.fst ∧
        alt.length < ops.length := by
  refine ⟨by decide, by decide, by decide, [Op.move 1 1 1, Op.move 0 1 1], [Op.move 0 2 1],
    [(3, 2), (1, 0), (2, 1)], by decide, by decide, by decide, by decide⟩

/-- C20 (bound on moves): with `m` matched pairs (output positions whose code is not
negative) `Edits` emits at most `m - 1` moves when `m ≥ 1` and none when `m = 0`; a loop
iteration that emits a move always leaves another matched pair among the outputs before it,
so the last matched pair to be processed is never moved. -/
theorem C20_move_bound (key : α → κ) (inp out : List α) :
    ∃ ops : List (Op α), Edits key inp out = some ops ∧
      (1 ≤ matchedCount (outputCoded key { Input := inp, Output := out }) out.length →
        countMoves ops + 1
          ≤ matchedCount (outputCoded key { Input := inp, Output := out }) out.length) ∧
      (matchedCount (outputCoded key { Input := inp, Output := out }) out.length = 0 →
        countMoves ops = 0) ∧
      ∀ (acc ops1 : List (Op α)) (s s1 : LoopState) (offset count distance : Int),
        Reaches { Input := inp, Output := out }
          (outputCoded key { Input := inp, Output := out })
          (removedSet key { Input := inp, Output := out })
          (initial (inputCoded key { Input := inp, Output := out })
            (outputCoded key { Input := inp, Output := out })) acc s →
        0 < s.i → 0 < s.o →
        step { Input := inp, Output := out }
          (outputCoded key { Input := inp, Output := out })
          (removedSet key { Input := inp, Output := out }) s = some (ops1, s1) →
        Op.move offset count distance ∈ ops1 →
        2 ≤ matchedCount (outputCoded key { Input := inp, Output := out }) s.o ∧
          1 ≤ matchedCount (outputCoded key { Input := inp, Output := out }) s1.o := by
  have hr := resolved_coded key { Input := inp, Output := out }
  obtain ⟨ops, hops, htr⟩ := Edits_trace key inp out
  have hnd : ((List.range inp.length).map Int.ofNat).Nodup :=
    List.Nodup.map (fun a b h => by simpa using h) (List.nodup_range _)
  have hbound := htr.moves_le hnd (by
    intro c hc hrem
    rw [← hr.output_len, List.take_length]
    by_contra hout
    obtain ⟨p, hp, rfl⟩ := List.mem_map.mp hc
    rw [List.mem_range] at hp
    have := (hr.removed_iff (Int.ofNat p)).mpr
      ⟨by simp, by simp only [Int.ofNat_eq_coe]; omega, hout⟩
    rw [hrem] at this
    cases this)
  refine ⟨ops, hops, fun h => by omega, fun h => by omega, ?_⟩
  intro acc ops1 s s1 offset count distance hreach hi ho hstep hop
  have hinv := hreach.inv_coded key _
  obtain ⟨a, b, -, hb, -, hcase⟩ := step_cases hr s hinv hi ho
  have hso : s.o - 1 + 1 = s.o := by omega
  rcases hcase with ⟨-, x, y, -, -, -, h⟩ | ⟨-, -, x, -, h⟩ | ⟨-, -, -, y, -, h⟩ |
      ⟨-, -, hb0, haO, A, B, x, y, hfull, -, -, -, -, -, -, h⟩
  · rw [hstep] at h; cases h; simp at hop
  · rw [hstep] at h; cases h; simp at hop
  · rw [hstep] at h; cases h; simp at hop
  · rw [hstep] at h
    cases h
    have ha0 : 0 ≤ a := by
      have hmem : a ∈ s.input.take s.i := by rw [hfull]; simp
      exact (hinv.input_mem a hmem).1
    have hpos := matchedCount_pos _ (s.o - 1) a haO ha0
    have hsucc := matchedCount_succ _ (s.o - 1) b hb
    rw [hso, if_pos hb0] at hsucc
    simp only
    omega

end Claims

end Hamming
